import Mathlib

/-!
Verification of the detectivedrone geometry-and-planning pipeline.

The Python sources are modelled as Lean functions over an arbitrary linear
ordered field `F` (`ℚ` for executable instances, `ℝ` for the Euclidean norm
theorems).  A 3-vector (numpy array of length 3) is a triple `F × F × F`.
Library primitives that live outside the repository (numpy's `linalg.norm`,
`arctan2`, `sqrt`, `cv2.triangulatePoints`, `numpy.linalg.svd`) are passed
as explicit function parameters; the repository's own code is translated
line by line.
-/

namespace DetectiveDrone

variable {F : Type} [LinearOrderedField F] [FloorRing F]

/-- A 3-vector, modelling a numpy array of shape (3,). -/
abbrev Vec3 (F : Type) := F × F × F

/-- Numeric library operations used by `flight_optimization.py`:
`nrm` models `np.linalg.norm` on a 3-vector, `atan2` models `np.arctan2`,
and `sqrtF` models `np.sqrt`. -/
structure NumOps (F : Type) where
  nrm : Vec3 F → F
  atan2 : F → F → F
  sqrtF : F → F

/-- Componentwise difference of two 3-vectors (numpy array subtraction). -/
def vsub (a b : Vec3 F) : Vec3 F :=
  (a.1 - b.1, a.2.1 - b.2.1, a.2.2 - b.2.2)

/-- Python's `min(lst, key=k)`: scan left to right, keep the current best,
replace it only on a strictly smaller key, so the first minimiser wins.
Returns `none` on the empty list (Python raises `ValueError` there). -/
def pythonMin (k : β → F) : List β → Option β
  | [] => none
  | x :: xs => some (xs.foldl (fun acc b => if k b < k acc then b else acc) x)

/-- `positions[i]` (always called in range in the source). -/
def posAt (positions : List (Vec3 F)) (i : ℕ) : Vec3 F :=
  positions.getD i (0, 0, 0)

/-- The nearest-neighbour construction loop of
`optimize_waypoint_order_2opt` (`flight_optimization.py` lines 102-112):
`while unvisited: nearest = min(unvisited, key=...); tour.append; remove`.
The fuel argument is the initial length of `unvisited`; each iteration
removes one element, so the fuel never runs out. -/
def nnGo (nrm : Vec3 F → F) (positions : List (Vec3 F)) :
    ℕ → Vec3 F → List ℕ → List ℕ
  | 0, _, _ => []
  | fuel + 1, currentPos, unvisited =>
    match pythonMin (fun i => nrm (vsub (posAt positions i) currentPos)) unvisited with
    | none => []
    | some nearest =>
      nearest :: nnGo nrm positions fuel (posAt positions nearest) (unvisited.erase nearest)

/-- Initial nearest-neighbour tour (indices into `positions`). -/
def nnTour (nrm : Vec3 F → F) (startPosition : Vec3 F) (positions : List (Vec3 F)) : List ℕ :=
  nnGo nrm positions positions.length startPosition (List.range positions.length)

/-- `tour[i+1:j+1] = reversed(tour[i+1:j+1])` (line 130). -/
def swapSlice (tour : List ℕ) (i j : ℕ) : List ℕ :=
  tour.take (i + 1) ++ ((tour.drop (i + 1)).take (j - i)).reverse ++ tour.drop (j + 1)

/-- `dist_current` of lines 121-122: the two tour edges that a 2-opt move
at `(i, j)` would delete; note the wrap-around index `(j+1) % len(tour)`. -/
def distCurrent (nrm : Vec3 F → F) (positions : List (Vec3 F)) (tour : List ℕ) (i j : ℕ) : F :=
  nrm (vsub (posAt positions (tour.getD i 0)) (posAt positions (tour.getD (i + 1) 0))) +
    nrm (vsub (posAt positions (tour.getD j 0)) (posAt positions (tour.getD ((j + 1) % tour.length) 0)))

/-- `dist_new` of lines 125-126: the two edges the move would create. -/
def distNew (nrm : Vec3 F → F) (positions : List (Vec3 F)) (tour : List ℕ) (i j : ℕ) : F :=
  nrm (vsub (posAt positions (tour.getD i 0)) (posAt positions (tour.getD j 0))) +
    nrm (vsub (posAt positions (tour.getD (i + 1) 0)) (posAt positions (tour.getD ((j + 1) % tour.length) 0)))

/-- One scan of the nested `for i ... for j ...` loops (lines 118-134).
The Python code applies the first improving swap it finds (both loops
`break`) and returns to the top of the `while improved` loop; so one scan
either yields the tour after the first accepted swap, or `none` when the
tour is 2-opt locally optimal. -/
def findImprove (nrm : Vec3 F → F) (positions : List (Vec3 F)) (tour : List ℕ) :
    Option (List ℕ) :=
  (List.range (tour.length - 2)).findSome? fun i =>
    (List.range' (i + 2) (tour.length - (i + 2))).findSome? fun j =>
      if distNew nrm positions tour i j < distCurrent nrm positions tour i j then
        some (swapSlice tour i j)
      else
        none

/-- The `while improved` loop (lines 115-134).  `fuel` bounds the number of
accepted swaps; with a symmetric metric every accepted swap strictly
decreases the wrap-around tour length, so at most `n!` swaps can occur and
a fuel of `n! + 1` reproduces the loop exactly. -/
def twoOptLoop (nrm : Vec3 F → F) (positions : List (Vec3 F)) : ℕ → List ℕ → List ℕ
  | 0, tour => tour
  | fuel + 1, tour =>
    match findImprove nrm positions tour with
    | none => tour
    | some tour' => twoOptLoop nrm positions fuel tour'

/-- A target-waypoint dictionary as built at lines 30-35 of
`flight_optimization.py` and consumed by the optimizer and expander. -/
structure TargetWp (F : Type) where
  position : Vec3 F
  orientTriple : Vec3 F
  palette_id : String
  barcode_position : Vec3 F

instance : Inhabited (TargetWp F) :=
  ⟨⟨(0, 0, 0), (0, 0, 0), "", (0, 0, 0)⟩⟩

/-- `optimize_waypoint_order_2opt(start_position, waypoints)`
(`flight_optimization.py` lines 84-136): nearest-neighbour construction
followed by first-improvement 2-opt. -/
def optimize_waypoint_order_2opt (nrm : Vec3 F → F) (start_position : Vec3 F)
    (waypoints : List (TargetWp F)) : List ℕ :=
  if waypoints.isEmpty then []
  else
    let positions := waypoints.map (·.position)
    twoOptLoop nrm positions (Nat.factorial waypoints.length + 1)
      (nnTour nrm start_position positions)

/-- Waypoint kind tag (`waypoint_type` values in the source). -/
inductive WpKind where
  | start
  | intermediate
  | target
  deriving DecidableEq, Repr

/-- A waypoint dictionary of the complete path.  `palette_id` and
`barcode_position` are only present on `target` waypoints, which the
`Option` fields record. -/
structure Waypoint (F : Type) where
  position : Vec3 F
  orientTriple : Vec3 F
  wkind : WpKind
  time : F
  battery : F
  palette_id : Option String
  barcode_position : Option (Vec3 F)

/-- `calculate_orientation(direction_vector)` (lines 56-81): returns
`[roll, pitch, yaw]`, or `[0,0,0]` for the zero vector. -/
def calculate_orientation (ops : NumOps F) (direction_vector : Vec3 F) : Vec3 F :=
  if 0 < ops.nrm direction_vector then
    let n := ops.nrm direction_vector
    let dx := direction_vector.1 / n
    let dy := direction_vector.2.1 / n
    let dz := direction_vector.2.2 / n
    let yaw := ops.atan2 dy dx
    let pitch := ops.atan2 (-dz) (ops.sqrtF (dx ^ 2 + dy ^ 2))
    (0, pitch, yaw)
  else
    (0, 0, 0)

/-- Mutable state of the expansion loop in `generate_complete_path`:
`current_pos`, `current_time`, `battery_remaining`. -/
structure PathState (F : Type) where
  cur : Vec3 F
  time : F
  battery : F

/-- One iteration of the intermediate-waypoint loop
`for i in range(1, num_points)` (lines 181-205): append the waypoint for
parameter `i` and advance time and battery. -/
def interStep (ops : NumOps F) (max_velocity : F) (currentPos direction : Vec3 F)
    (distance : F) (numPoints : ℕ) (acc : List (Waypoint F) × F × F) (i : ℕ) :
    List (Waypoint F) × F × F :=
  let frac : F := (i : F) / (numPoints : F)
  let ipos : Vec3 F :=
    (currentPos.1 + direction.1 * frac, currentPos.2.1 + direction.2.1 * frac,
      currentPos.2.2 + direction.2.2 * frac)
  let segment_distance := distance * (1 / (numPoints : F))
  let t' := acc.2.1 + segment_distance / max_velocity
  let b' := acc.2.2 - segment_distance * (1 / 10)
  (acc.1 ++
    [{ position := ipos, orientTriple := calculate_orientation ops direction,
       wkind := .intermediate, time := t', battery := b', palette_id := none,
       barcode_position := none }],
    t', b')

/-- The whole intermediate-waypoint loop, folded left to right while
threading time and battery. -/
def interFold (ops : NumOps F) (max_velocity : F) (currentPos direction : Vec3 F)
    (distance : F) (numPoints : ℕ) (t0 b0 : F) : List (Waypoint F) × F × F :=
  (List.range' 1 (numPoints - 1)).foldl
    (interStep ops max_velocity currentPos direction distance numPoints) ([], t0, b0)

/-- The body of `for wp in ordered_waypoints:` (lines 169-231): emit the
intermediate waypoints of the leg, then the `target` waypoint, and return
the updated state. -/
def legStep (ops : NumOps F) (max_velocity : F) (st : PathState F) (wp : TargetWp F) :
    List (Waypoint F) × PathState F :=
  let target_pos := wp.position
  let direction : Vec3 F := vsub target_pos st.cur
  let distance := ops.nrm direction
  let num_points := max 1 (Int.toNat ⌊distance / 2⌋)
  let inter :=
    if 2 < distance then
      interFold ops max_velocity st.cur direction distance num_points st.time st.battery
    else
      ([], st.time, st.battery)
  let final_segment_distance := if 2 < distance then distance / (num_points : F) else distance
  let t2 := inter.2.1 + final_segment_distance / max_velocity
  let t3 := t2 + 3
  let b2 := inter.2.2 - final_segment_distance * (1 / 10)
  let b3 := b2 - 3 * (1 / 20)
  (inter.1 ++
    [{ position := wp.position, orientTriple := wp.orientTriple, wkind := .target,
       time := t3, battery := b3, palette_id := some wp.palette_id,
       barcode_position := some wp.barcode_position }],
    { cur := target_pos, time := t3, battery := b3 })

/-- The intermediate waypoint emitted for loop parameter `i` with the
given cumulative time and battery values. -/
def mkInterWp (ops : NumOps F) (cur dir : Vec3 F) (num : ℕ) (i : ℕ) (t b : F) :
    Waypoint F :=
  { position :=
      (cur.1 + dir.1 * ((i : F) / (num : F)), cur.2.1 + dir.2.1 * ((i : F) / (num : F)),
        cur.2.2 + dir.2.2 * ((i : F) / (num : F))),
    orientTriple := calculate_orientation ops dir,
    wkind := .intermediate,
    time := t,
    battery := b,
    palette_id := none,
    barcode_position := none }

/-- The `target` waypoint emitted at lines 220-228. -/
def mkTargetWp (w : TargetWp F) (t b : F) : Waypoint F :=
  { position := w.position,
    orientTriple := w.orientTriple,
    wkind := .target,
    time := t,
    battery := b,
    palette_id := some w.palette_id,
    barcode_position := some w.barcode_position }

/-- The whole `for` loop of `generate_complete_path`. -/
def pathGo (ops : NumOps F) (max_velocity : F) :
    PathState F → List (TargetWp F) → List (Waypoint F)
  | _, [] => []
  | st, wp :: rest =>
    let step := legStep ops max_velocity st wp
    step.1 ++ pathGo ops max_velocity step.2 rest

/-- `generate_complete_path(start_position, ordered_waypoints,
max_velocity, battery_capacity)` (lines 139-233). -/
def generate_complete_path (ops : NumOps F) (start_position : Vec3 F)
    (ordered_waypoints : List (TargetWp F)) (max_velocity battery_capacity : F) :
    List (Waypoint F) :=
  { position := start_position, orientTriple := (0, 0, 0), wkind := .start, time := 0,
    battery := battery_capacity, palette_id := none,
    barcode_position := none } ::
    pathGo ops max_velocity
      { cur := start_position, time := 0, battery := battery_capacity } ordered_waypoints

/-- One entry of the `barcode_positions` dictionary consumed by
`create_optimized_trajectory` (insertion order preserved as a list). -/
structure BarcodeEntry (F : Type) where
  palette_id : String
  barcode_center : Vec3 F
  drone_waypoint : Vec3 F

/-- `create_optimized_trajectory(barcode_positions, start_position,
max_velocity, battery_capacity)` (lines 7-53). -/
def create_optimized_trajectory (ops : NumOps F) (barcode_positions : List (BarcodeEntry F))
    (start_position : Option (Vec3 F)) (max_velocity battery_capacity : F) :
    List (Waypoint F) :=
  let target_waypoints := barcode_positions.map fun e =>
    { position := e.drone_waypoint,
      orientTriple := calculate_orientation ops (vsub e.barcode_center e.drone_waypoint),
      palette_id := e.palette_id,
      barcode_position := e.barcode_center : TargetWp F }
  let s := start_position.getD (0, 0, 2)
  let optimized_order := optimize_waypoint_order_2opt ops.nrm s target_waypoints
  let ordered_waypoints := optimized_order.map fun i => target_waypoints.getD i default
  generate_complete_path ops s ordered_waypoints max_velocity battery_capacity

/-- `triangulate_points` of `3d_pose_est.py` (lines 27-39) and
`triangulate` of `post_est_3d.py` (lines 35-41), restricted to one
correspondence: the homogeneous solution `pts4d` returned by the external
`cv2.triangulatePoints` is taken as input, and the source dehomogenises it
by dividing by the fourth coordinate with no guard and no error path
(`(pts4d / pts4d[3])[:3]`). -/
def triangulate_points (pts4d : F × F × F × F) : Vec3 F :=
  (pts4d.1 / pts4d.2.2.2, pts4d.2.1 / pts4d.2.2.2, pts4d.2.2.1 / pts4d.2.2.2)

/-- Mean of a list of 3-vectors, modelling `np.mean(points, axis=0)`. -/
def vecMean (points : List (Vec3 F)) : Vec3 F :=
  ((points.map (·.1)).sum / (points.length : F),
    (points.map (·.2.1)).sum / (points.length : F),
    (points.map (·.2.2)).sum / (points.length : F))

/-- `fit_plane(points)` of `post_est_3d.py` (lines 43-49).  The singular
value decomposition is numpy library code; `svdLastRow` models
`np.linalg.svd(centered)[2][-1]`.  The source performs no point-count
check and has no error path: it always returns `(normal, centroid)`. -/
def fit_plane (svdLastRow : List (Vec3 F) → Vec3 F) (points : List (Vec3 F)) :
    Vec3 F × Vec3 F :=
  let centroid := vecMean points
  let centered := points.map fun p =>
    (p.1 - centroid.1, p.2.1 - centroid.2.1, p.2.2 - centroid.2.2)
  (svdLastRow centered, centroid)

/-- Total length of the open path `start → tour₀ → ⋯ → tourₙ` (no return
edge), the quantity the specification bounds. -/
def openPathLen (nrm : Vec3 F → F) (startPosition : Vec3 F) (positions : List (Vec3 F)) :
    List ℕ → F
  | [] => 0
  | i :: rest =>
    nrm (vsub (posAt positions i) startPosition) +
      openPathLen nrm (posAt positions i) positions rest

/-- Total length of the legs of the expansion: the sum of the distances
`current → next viewpoint` walked by `generate_complete_path`. -/
def twPathLen (nrm : Vec3 F → F) : Vec3 F → List (TargetWp F) → F
  | _, [] => 0
  | cur, w :: rest => nrm (vsub w.position cur) + twPathLen nrm w.position rest

/-- The Euclidean norm of a 3-vector: the meaning of `np.linalg.norm` on
the real numbers. -/
noncomputable def euclNorm (u : Vec3 ℝ) : ℝ :=
  Real.sqrt (u.1 ^ 2 + u.2.1 ^ 2 + u.2.2 ^ 2)

/-- `np.arctan2 y x` over the reals. -/
noncomputable def atan2R (y x : ℝ) : ℝ :=
  if 0 < x then Real.arctan (y / x)
  else if x < 0 then
    (if 0 ≤ y then Real.arctan (y / x) + Real.pi else Real.arctan (y / x) - Real.pi)
  else if 0 < y then Real.pi / 2
  else if y < 0 then -(Real.pi / 2)
  else 0

/-- The numeric operations of the source interpreted over the reals. -/
noncomputable def euclOps : NumOps ℝ :=
  ⟨euclNorm, atan2R, Real.sqrt⟩

/-- Modelled from the spec: `dist_current` as the specification requires
it for an open path, with the wrap-around edge (the term hit when
`j + 1 = len(tour)`) treated as zero-weight; this guarded comparison is
absent from the source. -/
def distCurrentOpen (nrm : Vec3 F → F) (positions : List (Vec3 F)) (tour : List ℕ)
    (i j : ℕ) : F :=
  nrm (vsub (posAt positions (tour.getD i 0)) (posAt positions (tour.getD (i + 1) 0))) +
    (if j + 1 = tour.length then 0
     else nrm (vsub (posAt positions (tour.getD j 0))
       (posAt positions (tour.getD ((j + 1) % tour.length) 0))))

/-- Modelled from the spec: `dist_new` with the wrap-around edge treated
as zero-weight (see `distCurrentOpen`). -/
def distNewOpen (nrm : Vec3 F → F) (positions : List (Vec3 F)) (tour : List ℕ)
    (i j : ℕ) : F :=
  nrm (vsub (posAt positions (tour.getD i 0)) (posAt positions (tour.getD j 0))) +
    (if j + 1 = tour.length then 0
     else nrm (vsub (posAt positions (tour.getD (i + 1) 0))
       (posAt positions (tour.getD ((j + 1) % tour.length) 0))))

/-- The four viewpoint positions of the worked 2-opt counterexample. -/
def cxPositions : List (Vec3 ℝ) :=
  [((0 : ℝ), 4, 0), ((4 : ℝ), 1, 0), ((0 : ℝ), 2, 0), ((0 : ℝ), 0, 0)]

/-- The counterexample's viewpoint list (positions as in `cxPositions`). -/
def cxWaypoints : List (TargetWp ℝ) :=
  [⟨((0 : ℝ), 4, 0), (0, 0, 0), "p0", ((0 : ℝ), 4, 0)⟩,
    ⟨((4 : ℝ), 1, 0), (0, 0, 0), "p1", ((4 : ℝ), 1, 0)⟩,
    ⟨((0 : ℝ), 2, 0), (0, 0, 0), "p2", ((0 : ℝ), 2, 0)⟩,
    ⟨((0 : ℝ), 0, 0), (0, 0, 0), "p3", ((0 : ℝ), 0, 0)⟩]

/-- Sum of the tour's edges including the wrap-around edge from the last
tour point back to the first: the quantity the source's 2-opt comparison
actually optimises. -/
def pathLen (nrm : Vec3 F → F) : Vec3 F → List (Vec3 F) → F
  | _, [] => 0
  | cur, p :: rest => nrm (vsub p cur) + pathLen nrm p rest

/-- Length of the closed polygon through the listed points (consecutive
edges plus the edge from the last point back to the first). -/
def cycleLen (nrm : Vec3 F → F) : List (Vec3 F) → F
  | [] => 0
  | p :: rest => pathLen nrm p (rest ++ [p])

/-- The positions visited by a tour (indices into `positions`). -/
def tourPoints (positions : List (Vec3 F)) (tour : List ℕ) : List (Vec3 F) :=
  tour.map (posAt positions)

section PermLemmas

variable {β γ : Type}

lemma foldlMin_mem (k : β → F) :
    ∀ (xs : List β) (acc : β),
      xs.foldl (fun acc b => if k b < k acc then b else acc) acc = acc ∨
        xs.foldl (fun acc b => if k b < k acc then b else acc) acc ∈ xs := by
  intro xs
  induction xs with
  | nil => intro acc; left; rfl
  | cons x xs ih =>
    intro acc
    rcases ih (if k x < k acc then x else acc) with h | h
    · by_cases hc : k x < k acc
      · right
        rw [List.foldl_cons, h, if_pos hc]
        exact List.mem_cons_self _ _
      · left
        rw [List.foldl_cons, h, if_neg hc]
    · right
      rw [List.foldl_cons]
      exact List.mem_cons_of_mem _ h

lemma pythonMin_mem {k : β → F} {l : List β} {m : β} (h : pythonMin k l = some m) :
    m ∈ l := by
  cases l with
  | nil => simp [pythonMin] at h
  | cons x xs =>
    simp only [pythonMin, Option.some.injEq] at h
    rcases foldlMin_mem k xs x with h' | h'
    · rw [← h, h']
      exact List.mem_cons_self _ _
    · rw [← h]
      exact List.mem_cons_of_mem _ h'

lemma findSome?_mem {f : β → Option γ} :
    ∀ {l : List β} {r : γ}, l.findSome? f = some r → ∃ a ∈ l, f a = some r := by
  intro l
  induction l with
  | nil => intro r h; simp [List.findSome?] at h
  | cons x xs ih =>
    intro r h
    cases hx : f x with
    | some v =>
      refine ⟨x, List.mem_cons_self _ _, ?_⟩
      rw [hx]
      rw [List.findSome?_cons, hx] at h
      exact h
    | none =>
      rw [List.findSome?_cons, hx] at h
      obtain ⟨a, ha, hfa⟩ := ih h
      exact ⟨a, List.mem_cons_of_mem _ ha, hfa⟩

lemma nnGo_perm (nrm : Vec3 F → F) (ps : List (Vec3 F)) :
    ∀ (fuel : ℕ) (cur : Vec3 F) (unvisited : List ℕ),
      unvisited.length ≤ fuel → (nnGo nrm ps fuel cur unvisited).Perm unvisited := by
  intro fuel
  induction fuel with
  | zero =>
    intro cur u h
    rw [List.length_eq_zero.mp (Nat.le_zero.mp h)]
    exact List.Perm.refl _
  | succ n ih =>
    intro cur u h
    cases hu : u with
    | nil => simp [nnGo, pythonMin]
    | cons a rest =>
      subst hu
      have hm : pythonMin (fun i => nrm (vsub (posAt ps i) cur)) (a :: rest) =
          some (rest.foldl
            (fun acc b =>
              if nrm (vsub (posAt ps b) cur) < nrm (vsub (posAt ps acc) cur) then b
              else acc) a) := rfl
      set m := rest.foldl
        (fun acc b =>
          if nrm (vsub (posAt ps b) cur) < nrm (vsub (posAt ps acc) cur) then b
          else acc) a with hmdef
      have hmem : m ∈ a :: rest := pythonMin_mem hm
      have hlen : ((a :: rest).erase m).length ≤ n := by
        rw [List.length_erase_of_mem hmem]
        simpa using Nat.le_of_succ_le_succ h
      have hrec := ih (posAt ps m) ((a :: rest).erase m) hlen
      have hstep : nnGo nrm ps (n + 1) cur (a :: rest) =
          m :: nnGo nrm ps n (posAt ps m) ((a :: rest).erase m) := by
        simp only [nnGo, hm]
      rw [hstep]
      exact (hrec.cons m).trans (List.perm_cons_erase hmem).symm

lemma nnTour_perm (nrm : Vec3 F → F) (s : Vec3 F) (ps : List (Vec3 F)) :
    (nnTour nrm s ps).Perm (List.range ps.length) :=
  nnGo_perm nrm ps ps.length s (List.range ps.length) (by simp)

lemma swapSlice_perm (t : List ℕ) (i j : ℕ) (hij : i ≤ j) :
    (swapSlice t i j).Perm t := by
  unfold swapSlice
  have hsplit : t.drop (i + 1) =
      (t.drop (i + 1)).take (j - i) ++ t.drop (j + 1) := by
    have := List.take_append_drop (j - i) (t.drop (i + 1))
    rw [List.drop_drop] at this
    have harith : i + 1 + (j - i) = j + 1 := by omega
    rw [harith] at this
    exact this.symm
  calc (t.take (i + 1) ++ ((t.drop (i + 1)).take (j - i)).reverse ++ t.drop (j + 1)).Perm
        (t.take (i + 1) ++ (t.drop (i + 1)).take (j - i) ++ t.drop (j + 1)) := by
        refine List.Perm.append ?_ (List.Perm.refl _)
        exact List.Perm.append_left _ (List.reverse_perm _)
    _ = t.take (i + 1) ++ ((t.drop (i + 1)).take (j - i) ++ t.drop (j + 1)) := by
        rw [List.append_assoc]
    _ = t.take (i + 1) ++ t.drop (i + 1) := by rw [← hsplit]
    _ = t := List.take_append_drop _ t

lemma findImprove_perm {nrm : Vec3 F → F} {ps : List (Vec3 F)} {t t' : List ℕ}
    (h : findImprove nrm ps t = some t') : t'.Perm t := by
  unfold findImprove at h
  obtain ⟨i, _, hi⟩ := findSome?_mem h
  obtain ⟨j, hjmem, hj⟩ := findSome?_mem hi
  have hij : i ≤ j := by
    have := List.mem_range'_1.mp hjmem
    omega
  by_cases hacc : distNew nrm ps t i j < distCurrent nrm ps t i j
  · rw [if_pos hacc, Option.some.injEq] at hj
    rw [← hj]
    exact swapSlice_perm t i j hij
  · rw [if_neg hacc] at hj
    exact absurd hj (Option.noConfusion)

lemma twoOptLoop_perm (nrm : Vec3 F → F) (ps : List (Vec3 F)) :
    ∀ (fuel : ℕ) (t : List ℕ), (twoOptLoop nrm ps fuel t).Perm t := by
  intro fuel
  induction fuel with
  | zero => intro t; exact List.Perm.refl _
  | succ n ih =>
    intro t
    cases hf : findImprove nrm ps t with
    | none => simp only [twoOptLoop, hf]; exact List.Perm.refl _
    | some t' =>
      simp only [twoOptLoop, hf]
      exact (ih t').trans (findImprove_perm hf)

lemma foldlMin_first (k : β → F) :
    ∀ (xs : List β) (acc : β),
      ∃ m, xs.foldl (fun acc b => if k b < k acc then b else acc) acc = m ∧
        ((m = acc ∧ ∀ y ∈ xs, k acc ≤ k y) ∨
          ∃ pre post, xs = pre ++ m :: post ∧ k m < k acc ∧
            (∀ y ∈ pre, k m < k y) ∧ ∀ y ∈ post, k m ≤ k y) := by
  intro xs
  induction xs with
  | nil => intro acc; exact ⟨acc, rfl, Or.inl ⟨rfl, by simp⟩⟩
  | cons z rest ih =>
    intro acc
    by_cases hz : k z < k acc
    · obtain ⟨m, hm, hcase⟩ := ih z
      refine ⟨m, ?_, ?_⟩
      · rw [List.foldl_cons, if_pos hz]; exact hm
      rcases hcase with ⟨heq, hall⟩ | ⟨pre, post, hsplit, hlt, hpre, hpost⟩
      · right
        refine ⟨[], rest, by rw [heq]; rfl, by rw [heq]; exact hz, by simp, ?_⟩
        rw [heq]
        exact hall
      · right
        refine ⟨z :: pre, post, ?_, lt_trans hlt hz, ?_, hpost⟩
        · rw [List.cons_append]
          exact congrArg (z :: ·) hsplit
        · intro y hy
          rcases List.mem_cons.mp hy with hy | hy
          · rw [hy]; exact hlt
          · exact hpre y hy
    · obtain ⟨m, hm, hcase⟩ := ih acc
      refine ⟨m, ?_, ?_⟩
      · rw [List.foldl_cons, if_neg hz]; exact hm
      rcases hcase with ⟨heq, hall⟩ | ⟨pre, post, hsplit, hlt, hpre, hpost⟩
      · left
        refine ⟨heq, ?_⟩
        intro y hy
        rcases List.mem_cons.mp hy with hy | hy
        · rw [hy]; exact le_of_not_lt hz
        · exact hall y hy
      · right
        refine ⟨z :: pre, post, ?_, hlt, ?_, hpost⟩
        · rw [List.cons_append]
          exact congrArg (z :: ·) hsplit
        · intro y hy
          rcases List.mem_cons.mp hy with hy | hy
          · rw [hy]; exact lt_of_lt_of_le hlt (le_of_not_lt hz)
          · exact hpre y hy

/-- The first-minimiser property of Python's `min(lst, key=k)`:
the result splits the list as `pre ++ m :: post` where `m` attains the
minimum key and every element before `m` has a strictly larger key. -/
lemma pythonMin_first (k : β → F) (x : β) (xs : List β) :
    ∃ m pre post,
      pythonMin k (x :: xs) = some m ∧ x :: xs = pre ++ m :: post ∧
        (∀ y ∈ x :: xs, k m ≤ k y) ∧ ∀ y ∈ pre, k m < k y := by
  obtain ⟨m, hm, hcase⟩ := foldlMin_first k xs x
  have hpm : pythonMin k (x :: xs) = some m := by
    simp only [pythonMin, hm]
  rcases hcase with ⟨heq, hall⟩ | ⟨pre, post, hsplit, hlt, hpre, hpost⟩
  · subst heq
    refine ⟨m, [], xs, hpm, rfl, ?_, by simp⟩
    intro y hy
    rcases List.mem_cons.mp hy with hy | hy
    · rw [hy]
    · exact hall y hy
  · refine ⟨m, x :: pre, post, hpm, ?_, ?_, ?_⟩
    · rw [List.cons_append]
      exact congrArg (x :: ·) hsplit
    · intro y hy
      rcases List.mem_cons.mp hy with hy | hy
      · rw [hy]; exact le_of_lt hlt
      · rw [hsplit] at hy
        rcases List.mem_append.mp hy with hy | hy
        · exact le_of_lt (hpre y hy)
        · rcases List.mem_cons.mp hy with hy | hy
          · rw [hy]
          · exact hpost y hy
    · intro y hy
      rcases List.mem_cons.mp hy with hy | hy
      · rw [hy]; exact hlt
      · exact hpre y hy

end PermLemmas

/-- C4: confirmed.  For every start position and every viewpoint list,
`optimize_waypoint_order_2opt` returns a permutation of the index range
`0..n-1`: the nearest-neighbour construction removes each chosen index
from `unvisited`, and every accepted 2-opt move merely reverses a
contiguous slice, so no viewpoint index is duplicated or dropped.  In
particular 0 viewpoints give the empty tour and 1 viewpoint gives the
single-element tour `[0]`, the unique permutations of those ranges. -/
theorem optimize_waypoint_order_2opt_perm (nrm : Vec3 F → F) (start_position : Vec3 F)
    (waypoints : List (TargetWp F)) :
    (optimize_waypoint_order_2opt nrm start_position waypoints).Perm
      (List.range waypoints.length) := by
  unfold optimize_waypoint_order_2opt
  by_cases hw : waypoints.isEmpty
  · rw [if_pos hw]
    rw [List.isEmpty_iff] at hw
    simp [hw]
  · rw [if_neg hw]
    have h1 := twoOptLoop_perm nrm (waypoints.map (·.position))
      (Nat.factorial waypoints.length + 1)
      (nnTour nrm start_position (waypoints.map (·.position)))
    have h2 := nnTour_perm nrm start_position (waypoints.map (·.position))
    have := h1.trans h2
    simpa using this

section ExpanderLemmas

variable {γ : Type}

/-- A chain over an appended list splits at the last element of the
first part. -/
lemma chain_append_getLastD {R : γ → γ → Prop} (l₂ : List γ) :
    ∀ (l₁ : List γ) (a : γ),
      List.Chain R a (l₁ ++ l₂) ↔ List.Chain R a l₁ ∧ List.Chain R (l₁.getLastD a) l₂ := by
  intro l₁
  induction l₁ with
  | nil => intro a; simp
  | cons x xs ih =>
    intro a
    simp only [List.cons_append, List.chain_cons, List.getLastD_cons, ih x, and_assoc]

lemma getLastD_append (l₁ l₂ : List γ) (a : γ) :
    (l₁ ++ l₂).getLastD a = l₂.getLastD (l₁.getLastD a) := by
  induction l₁ generalizing a with
  | nil => rfl
  | cons x xs ih => simp only [List.cons_append, List.getLastD_cons, ih x]

lemma getLastD_eq_get (l : List γ) (a : γ) (h : 0 < l.length) :
    l.getLastD a = l.get ⟨l.length - 1, by omega⟩ := by
  induction l generalizing a with
  | nil => simp at h
  | cons x xs ih =>
    cases xs with
    | nil => rfl
    | cons y ys =>
      rw [List.getLastD_cons, ih x (by simp)]
      rfl

/-- Closed form of the intermediate-waypoint loop: folding `interStep`
over `range' j cnt` appends `cnt` intermediate waypoints whose positions
lie at parametric fractions `(j+idx)/num` and whose time and battery
advance by a constant per step. -/
lemma interStep_go (ops : NumOps F) (v : F) (cur dir : Vec3 F) (d : F) (num : ℕ) :
    ∀ (cnt j : ℕ) (A : List (Waypoint F)) (t b : F),
      ∃ E : List (Waypoint F),
        (List.range' j cnt).foldl (interStep ops v cur dir d num) (A, t, b) =
            (A ++ E, t + (cnt : F) * (d * (1 / (num : F)) / v),
              b - (cnt : F) * (d * (1 / (num : F)) * (1 / 10))) ∧
          E.length = cnt ∧
          ∀ (idx : ℕ) (h : idx < E.length),
            E.get ⟨idx, h⟩ =
              mkInterWp ops cur dir num (j + idx)
                (t + ((idx + 1 : ℕ) : F) * (d * (1 / (num : F)) / v))
                (b - ((idx + 1 : ℕ) : F) * (d * (1 / (num : F)) * (1 / 10))) := by
  intro cnt
  induction cnt with
  | zero =>
    intro j A t b
    refine ⟨[], ?_, rfl, fun idx h => by simp at h⟩
    simp
  | succ n ih =>
    intro j A t b
    have hrange : List.range' j (n + 1) = j :: List.range' (j + 1) n := rfl
    obtain ⟨E', hE'eq, hE'len, hE'get⟩ :=
      ih (j + 1)
        (A ++ [mkInterWp ops cur dir num j (t + d * (1 / (num : F)) / v)
          (b - d * (1 / (num : F)) * (1 / 10))])
        (t + d * (1 / (num : F)) / v) (b - d * (1 / (num : F)) * (1 / 10))
    refine ⟨mkInterWp ops cur dir num j (t + d * (1 / (num : F)) / v)
        (b - d * (1 / (num : F)) * (1 / 10)) :: E', ?_, by simpa using hE'len, ?_⟩
    · rw [hrange, List.foldl_cons]
      have hstep : interStep ops v cur dir d num (A, t, b) j =
          (A ++ [mkInterWp ops cur dir num j (t + d * (1 / (num : F)) / v)
            (b - d * (1 / (num : F)) * (1 / 10))],
            t + d * (1 / (num : F)) / v, b - d * (1 / (num : F)) * (1 / 10)) := rfl
      rw [hstep, hE'eq, List.append_assoc]
      refine congrArg (Prod.mk _) (congrArg₂ Prod.mk ?_ ?_)
      · push_cast
        ring
      · push_cast
        ring
    · intro idx h
      cases idx with
      | zero =>
        have et : t + ((0 + 1 : ℕ) : F) * (d * (1 / (num : F)) / v) =
            t + d * (1 / (num : F)) / v := by
          push_cast
          ring
        have eb : b - ((0 + 1 : ℕ) : F) * (d * (1 / (num : F)) * (1 / 10)) =
            b - d * (1 / (num : F)) * (1 / 10) := by
          push_cast
          ring
        rw [et, eb]
        rfl
      | succ idx' =>
        have h' : idx' < E'.length := by
          simp only [List.length_cons] at h
          omega
        have hgot := hE'get idx' h'
        simp only [List.get_cons_succ]
        rw [hgot]
        have harg : j + 1 + idx' = j + (idx' + 1) := by omega
        have et : t + d * (1 / (num : F)) / v +
            ((idx' + 1 : ℕ) : F) * (d * (1 / (num : F)) / v) =
            t + ((idx' + 1 + 1 : ℕ) : F) * (d * (1 / (num : F)) / v) := by
          push_cast
          ring
        have eb : b - d * (1 / (num : F)) * (1 / 10) -
            ((idx' + 1 : ℕ) : F) * (d * (1 / (num : F)) * (1 / 10)) =
            b - ((idx' + 1 + 1 : ℕ) : F) * (d * (1 / (num : F)) * (1 / 10)) := by
          push_cast
          ring
        rw [harg, et, eb]

/-- Full characterisation of one leg of the expansion loop: the emitted
waypoints are the intermediates (present only when the leg distance
exceeds 2, in which case there are `num_points - 1` of them with the
stated positions, times and batteries) followed by exactly one `target`
waypoint, and the state advances by the leg distance over the velocity
plus the 3-second scan dwell, with battery drained for the full distance
plus the hover dwell. -/
lemma legStep_spec (ops : NumOps F) (v : F) (st : PathState F) (w : TargetWp F) :
    ∃ E : List (Waypoint F),
      (legStep ops v st w).1 =
          E ++ [mkTargetWp w (st.time + ops.nrm (vsub w.position st.cur) / v + 3)
            (st.battery - ops.nrm (vsub w.position st.cur) * (1 / 10) - 3 * (1 / 20))] ∧
        (legStep ops v st w).2 =
          { cur := w.position,
            time := st.time + ops.nrm (vsub w.position st.cur) / v + 3,
            battery :=
              st.battery - ops.nrm (vsub w.position st.cur) * (1 / 10) - 3 * (1 / 20) } ∧
        (¬ 2 < ops.nrm (vsub w.position st.cur) → E = []) ∧
        (2 < ops.nrm (vsub w.position st.cur) →
          E.length = max 1 (Int.toNat ⌊ops.nrm (vsub w.position st.cur) / 2⌋) - 1 ∧
            ∀ (idx : ℕ) (h : idx < E.length),
              E.get ⟨idx, h⟩ =
                mkInterWp ops st.cur (vsub w.position st.cur)
                  (max 1 (Int.toNat ⌊ops.nrm (vsub w.position st.cur) / 2⌋)) (1 + idx)
                  (st.time + ((idx + 1 : ℕ) : F) *
                    (ops.nrm (vsub w.position st.cur) *
                      (1 / ((max 1 (Int.toNat ⌊ops.nrm (vsub w.position st.cur) / 2⌋) : ℕ) : F)) /
                        v))
                  (st.battery - ((idx + 1 : ℕ) : F) *
                    (ops.nrm (vsub w.position st.cur) *
                      (1 / ((max 1 (Int.toNat ⌊ops.nrm (vsub w.position st.cur) / 2⌋) : ℕ) : F)) *
                      (1 / 10)))) := by
  set d := ops.nrm (vsub w.position st.cur) with hd
  set num := max 1 (Int.toNat ⌊d / 2⌋) with hnum
  have hnum1 : 1 ≤ num := le_max_left _ _
  have hnum0 : ((num : F)) ≠ 0 := by
    have : (0 : F) < (num : F) := by
      exact_mod_cast Nat.lt_of_lt_of_le Nat.zero_lt_one hnum1
    exact ne_of_gt this
  by_cases hcase : 2 < d
  · obtain ⟨E, hEeq, hElen, hEget⟩ :=
      interStep_go ops v st.cur (vsub w.position st.cur) d num (num - 1) 1 [] st.time st.battery
    have hIF : interFold ops v st.cur (vsub w.position st.cur) d num st.time st.battery =
        (E, st.time + ((num - 1 : ℕ) : F) * (d * (1 / (num : F)) / v),
          st.battery - ((num - 1 : ℕ) : F) * (d * (1 / (num : F)) * (1 / 10))) := by
      rw [interFold, hEeq]
      simp
    have hcast : ((num - 1 : ℕ) : F) = (num : F) - 1 := by
      rw [Nat.cast_sub hnum1, Nat.cast_one]
    have e : ((num : F) - 1) * (d * (1 / (num : F))) + d / (num : F) = d := by
      field_simp
      ring
    have et3 : st.time + ((num - 1 : ℕ) : F) * (d * (1 / (num : F)) / v) + d / (num : F) / v + 3 =
        st.time + d / v + 3 := by
      rw [hcast]
      calc st.time + ((num : F) - 1) * (d * (1 / (num : F)) / v) + d / (num : F) / v + 3
          = st.time + (((num : F) - 1) * (d * (1 / (num : F))) + d / (num : F)) / v + 3 := by
            ring
        _ = st.time + d / v + 3 := by rw [e]
    have eb3 : st.battery - ((num - 1 : ℕ) : F) * (d * (1 / (num : F)) * (1 / 10)) -
        d / (num : F) * (1 / 10) - 3 * (1 / 20) =
        st.battery - d * (1 / 10) - 3 * (1 / 20) := by
      rw [hcast]
      calc st.battery - ((num : F) - 1) * (d * (1 / (num : F)) * (1 / 10)) -
            d / (num : F) * (1 / 10) - 3 * (1 / 20)
          = st.battery -
              (((num : F) - 1) * (d * (1 / (num : F))) + d / (num : F)) * (1 / 10) -
              3 * (1 / 20) := by ring
        _ = st.battery - d * (1 / 10) - 3 * (1 / 20) := by rw [e]
    refine ⟨E, ?_, ?_, fun hc => absurd hcase hc, fun _ => ⟨hElen, hEget⟩⟩
    · show (legStep ops v st w).1 = _
      simp only [legStep, ← hd, ← hnum, if_pos hcase, hIF]
      rw [et3, eb3]
      rfl
    · show (legStep ops v st w).2 = _
      simp only [legStep, ← hd, ← hnum, if_pos hcase, hIF]
      rw [et3, eb3]
  · refine ⟨[], ?_, ?_, fun _ => rfl, fun hc => absurd hc hcase⟩
    · show (legStep ops v st w).1 = _
      simp only [legStep, ← hd, ← hnum, if_neg hcase]
      rfl
    · show (legStep ops v st w).2 = _
      simp only [legStep, ← hd, ← hnum, if_neg hcase]

/-- Sub-segment contributions of at most `num - 1` steps stay below the
whole leg's contribution. -/
lemma interContrib_le (d c : F) (num : ℕ) (hnum1 : 1 ≤ num) (hd0 : 0 ≤ d) (hc : 0 ≤ c)
    (k : ℕ) (hk : k ≤ num - 1) :
    ((k : ℕ) : F) * (d * (1 / (num : F)) * c) ≤ d * c := by
  have hnumF : (0 : F) < (num : F) := by
    exact_mod_cast Nat.lt_of_lt_of_le Nat.zero_lt_one hnum1
  have hkF : ((k : ℕ) : F) ≤ (num : F) - 1 := by
    have := Nat.cast_le (α := F) |>.mpr hk
    rwa [Nat.cast_sub hnum1, Nat.cast_one] at this
  have hk0 : (0 : F) ≤ ((k : ℕ) : F) := Nat.cast_nonneg _
  have hstep : 0 ≤ d * (1 / (num : F)) * c := by positivity
  calc ((k : ℕ) : F) * (d * (1 / (num : F)) * c)
      ≤ ((num : F) - 1) * (d * (1 / (num : F)) * c) :=
        mul_le_mul_of_nonneg_right hkF hstep
    _ = d * c * (((num : F) - 1) / (num : F)) := by ring
    _ ≤ d * c * 1 := by
        apply mul_le_mul_of_nonneg_left ?_ (by positivity)
        rw [div_le_one hnumF]
        linarith
    _ = d * c := mul_one _

/-- Per-leg facts feeding the whole-trajectory invariants: strictly
increasing times, non-increasing battery, no `start` kind, exactly one
`target` carrying the viewpoint's identifier, and the leg's final
time and battery values. -/
lemma legStep_facts (ops : NumOps F) (v : F) (hv : 0 < v) (st : PathState F) (w : TargetWp F)
    (hd0 : 0 ≤ ops.nrm (vsub w.position st.cur)) :
    List.Chain (· < ·) st.time ((legStep ops v st w).1.map (fun x => x.time)) ∧
      List.Chain (fun a b => b ≤ a) st.battery
        ((legStep ops v st w).1.map (fun x => x.battery)) ∧
      ((legStep ops v st w).1.map (fun x => x.time)).getLastD st.time =
        (legStep ops v st w).2.time ∧
      ((legStep ops v st w).1.map (fun x => x.battery)).getLastD st.battery =
        (legStep ops v st w).2.battery ∧
      (∀ x ∈ (legStep ops v st w).1, x.wkind ≠ WpKind.start) ∧
      ((legStep ops v st w).1.filter (fun x => x.wkind == WpKind.target)).map
          (fun x => x.palette_id) = [some w.palette_id] ∧
      (legStep ops v st w).2.cur = w.position := by
  obtain ⟨E, hE1, hE2, hEnil, hEpos⟩ := legStep_spec ops v st w
  set d := ops.nrm (vsub w.position st.cur) with hdDef
  set num := max 1 (Int.toNat ⌊d / 2⌋) with hnumDef
  have hnum1 : 1 ≤ num := le_max_left _ _
  have hnumF : (0 : F) < (num : F) := by
    exact_mod_cast Nat.lt_of_lt_of_le Nat.zero_lt_one hnum1
  have hTgt : st.time < st.time + d / v + 3 := by
    have : 0 ≤ d / v := div_nonneg hd0 (le_of_lt hv)
    linarith
  have hBle : st.battery - d * (1 / 10) - 3 * (1 / 20) ≤ st.battery := by nlinarith
  have hEkind : ∀ x ∈ E, x.wkind = WpKind.intermediate := by
    intro x hx
    by_cases hc : 2 < d
    · obtain ⟨n, hn⟩ := List.mem_iff_get.mp hx
      rw [← hn, (hEpos hc).2 n.1 n.2]
      rfl
    · rw [hEnil hc] at hx
      simp at hx
  have hLt : ((legStep ops v st w).1.map (fun x => x.time)).getLastD st.time =
      st.time + d / v + 3 := by
    rw [hE1, List.map_append, getLastD_append]
    rfl
  have hLb : ((legStep ops v st w).1.map (fun x => x.battery)).getLastD st.battery =
      st.battery - d * (1 / 10) - 3 * (1 / 20) := by
    rw [hE1, List.map_append, getLastD_append]
    rfl
  have hEtime : ∀ (i : ℕ) (h : i < E.length),
      (E.get ⟨i, h⟩).time = st.time + ((i + 1 : ℕ) : F) * (d * (1 / (num : F)) / v) := by
    intro i h
    by_cases hc : 2 < d
    · rw [(hEpos hc).2 i h]
      rfl
    · rw [hEnil hc] at h
      simp at h
  have hEbat : ∀ (i : ℕ) (h : i < E.length),
      (E.get ⟨i, h⟩).battery =
        st.battery - ((i + 1 : ℕ) : F) * (d * (1 / (num : F)) * (1 / 10)) := by
    intro i h
    by_cases hc : 2 < d
    · rw [(hEpos hc).2 i h]
      rfl
    · rw [hEnil hc] at h
      simp at h
  have hElenle : E.length ≤ num - 1 := by
    by_cases hc : 2 < d
    · exact le_of_eq (hEpos hc).1
    · rw [hEnil hc]
      simp
  have hEd0 : E ≠ [] → 0 < d := by
    intro hne
    by_contra hcon
    push_neg at hcon
    by_cases hc : 2 < d
    · linarith
    · exact hne (hEnil hc)
  -- strict positivity of the per-step increments when intermediates exist
  have hstep_pos : E ≠ [] → 0 < d * (1 / (num : F)) / v := by
    intro hne
    have h2 : (0 : F) < d := hEd0 hne
    have : 0 < d * (1 / (num : F)) := by positivity
    exact div_pos this hv
  have hstep_b : 0 ≤ d * (1 / (num : F)) * (1 / 10) := by positivity
  have hchainT : List.Chain (· < ·) st.time
      ((legStep ops v st w).1.map (fun x => x.time)) := by
    rw [hE1, List.map_append, chain_append_getLastD]
    constructor
    · cases hEe : E with
      | nil => simp [List.Chain.nil]
      | cons e0 erest =>
        rw [← hEe]
        have hne : E ≠ [] := by rw [hEe]; simp
        have hΔ := hstep_pos hne
        rw [List.chain_iff_get]
        constructor
        · intro h0
          have h0' : 0 < E.length := by simpa using h0
          simp only [List.get_eq_getElem, List.getElem_map]
          have := hEtime 0 h0'
          simp only [List.get_eq_getElem] at this
          rw [this]
          push_cast
          linarith
        · intro i hi
          have hi1 : i < E.length := by
            simp only [List.length_map] at hi
            omega
          have hi2 : i + 1 < E.length := by
            simp only [List.length_map] at hi
            omega
          simp only [List.get_eq_getElem, List.getElem_map]
          have e1 := hEtime i hi1
          have e2 := hEtime (i + 1) hi2
          simp only [List.get_eq_getElem] at e1 e2
          rw [e1, e2]
          have hcast : ((i + 1 : ℕ) : F) < ((i + 1 + 1 : ℕ) : F) := by
            exact_mod_cast Nat.lt_succ_self _
          have := mul_lt_mul_of_pos_right hcast hΔ
          linarith
    · simp only [List.map_cons, List.map_nil, mkTargetWp]
      rw [List.chain_singleton]
      cases hEe : E with
      | nil => simpa using hTgt
      | cons e0 erest =>
        rw [← hEe]
        have hne : E ≠ [] := by rw [hEe]; simp
        have hlen : 0 < E.length := List.length_pos.mpr hne
        have hlen' : 0 < (E.map (fun x => x.time)).length := by simpa using hlen
        rw [getLastD_eq_get _ _ hlen']
        simp only [List.get_eq_getElem, List.getElem_map, List.length_map]
        have hidx : E.length - 1 < E.length := by omega
        have := hEtime (E.length - 1) hidx
        simp only [List.get_eq_getElem] at this
        rw [this]
        have harith : E.length - 1 + 1 = E.length := by omega
        rw [harith]
        have hcontrib := interContrib_le d (1 / v) num hnum1
          (le_of_lt (hEd0 hne)) (by positivity) E.length hElenle
        have hrw : d * (1 / (num : F)) * (1 / v) = d * (1 / (num : F)) / v := by ring
        have hrw2 : d * (1 / v) = d / v := by ring
        rw [hrw, hrw2] at hcontrib
        linarith
  have hchainB : List.Chain (fun a b => b ≤ a) st.battery
      ((legStep ops v st w).1.map (fun x => x.battery)) := by
    rw [hE1, List.map_append, chain_append_getLastD]
    constructor
    · rw [List.chain_iff_get]
      constructor
      · intro h0
        have h0' : 0 < E.length := by simpa using h0
        simp only [List.get_eq_getElem, List.getElem_map]
        have := hEbat 0 h0'
        simp only [List.get_eq_getElem] at this
        rw [this]
        push_cast
        nlinarith
      · intro i hi
        have hi1 : i < E.length := by
          simp only [List.length_map] at hi
          omega
        have hi2 : i + 1 < E.length := by
          simp only [List.length_map] at hi
          omega
        simp only [List.get_eq_getElem, List.getElem_map]
        have e1 := hEbat i hi1
        have e2 := hEbat (i + 1) hi2
        simp only [List.get_eq_getElem] at e1 e2
        rw [e1, e2]
        have hcast : ((i + 1 : ℕ) : F) ≤ ((i + 1 + 1 : ℕ) : F) := by
          exact_mod_cast Nat.le_succ _
        have := mul_le_mul_of_nonneg_right hcast hstep_b
        linarith
    · simp only [List.map_cons, List.map_nil, mkTargetWp]
      rw [List.chain_singleton]
      cases hEe : E with
      | nil => simpa using hBle
      | cons e0 erest =>
        rw [← hEe]
        have hne : E ≠ [] := by rw [hEe]; simp
        have hlen : 0 < E.length := List.length_pos.mpr hne
        have hlen' : 0 < (E.map (fun x => x.battery)).length := by simpa using hlen
        rw [getLastD_eq_get _ _ hlen']
        simp only [List.get_eq_getElem, List.getElem_map, List.length_map]
        have hidx : E.length - 1 < E.length := by omega
        have := hEbat (E.length - 1) hidx
        simp only [List.get_eq_getElem] at this
        rw [this]
        have harith : E.length - 1 + 1 = E.length := by omega
        rw [harith]
        have hcontrib := interContrib_le d (1 / 10) num hnum1
          (le_of_lt (hEd0 hne)) (by norm_num) E.length hElenle
        linarith
  refine ⟨hchainT, hchainB, ?_, ?_, ?_, ?_, ?_⟩
  · rw [hLt, hE2]
  · rw [hLb, hE2]
  · intro x hx
    rw [hE1] at hx
    rcases List.mem_append.mp hx with hx | hx
    · rw [hEkind x hx]
      simp
    · rcases List.mem_singleton.mp hx with rfl
      simp [mkTargetWp]
  · rw [hE1, List.filter_append]
    have hfE : E.filter (fun x => x.wkind == WpKind.target) = [] := by
      rw [List.filter_eq_nil_iff]
      intro x hx
      rw [hEkind x hx]
      simp
    rw [hfE]
    rfl
  · rw [hE2]

/-- The elapsed time at the end of the expansion loop is the start time
plus the total leg length over the velocity plus 3 seconds of scan dwell
per visited viewpoint. -/
lemma pathGo_time (ops : NumOps F) (v : F) :
    ∀ (ws : List (TargetWp F)) (st : PathState F),
      ((pathGo ops v st ws).map (fun x => x.time)).getLastD st.time =
        st.time + twPathLen ops.nrm st.cur ws / v + 3 * (ws.length : F) := by
  intro ws
  induction ws with
  | nil =>
    intro st
    simp [pathGo, twPathLen]
  | cons w rest ih =>
    intro st
    obtain ⟨E, hE1, hE2, _, _⟩ := legStep_spec ops v st w
    have hstep : pathGo ops v st (w :: rest) =
        (legStep ops v st w).1 ++ pathGo ops v (legStep ops v st w).2 rest := rfl
    rw [hstep, List.map_append, getLastD_append]
    have hleg : ((legStep ops v st w).1.map (fun x => x.time)).getLastD st.time =
        st.time + ops.nrm (vsub w.position st.cur) / v + 3 := by
      rw [hE1, List.map_append, getLastD_append]
      rfl
    rw [hleg, hE2]
    have := ih ⟨w.position, st.time + ops.nrm (vsub w.position st.cur) / v + 3,
      st.battery - ops.nrm (vsub w.position st.cur) * (1 / 10) - 3 * (1 / 20)⟩
    rw [this]
    show _ + twPathLen ops.nrm w.position rest / v + _ = _ + twPathLen ops.nrm st.cur (w :: rest) / v + _
    rw [twPathLen]
    simp only [List.length_cons]
    push_cast
    ring

/-- Whole-loop invariants: strictly increasing times, non-increasing
battery, no `start` waypoint emitted inside the loop, and the `target`
waypoints carry the viewpoint identifiers in input order. -/
lemma pathGo_invs (ops : NumOps F) (v : F) (hv : 0 < v) (hnn : ∀ u, 0 ≤ ops.nrm u) :
    ∀ (ws : List (TargetWp F)) (st : PathState F),
      List.Chain (· < ·) st.time ((pathGo ops v st ws).map (fun x => x.time)) ∧
        List.Chain (fun a b => b ≤ a) st.battery
          ((pathGo ops v st ws).map (fun x => x.battery)) ∧
        (∀ x ∈ pathGo ops v st ws, x.wkind ≠ WpKind.start) ∧
        ((pathGo ops v st ws).filter (fun x => x.wkind == WpKind.target)).map
          (fun x => x.palette_id) = ws.map (fun w => some w.palette_id) := by
  intro ws
  induction ws with
  | nil =>
    intro st
    refine ⟨List.Chain.nil, List.Chain.nil, ?_, rfl⟩
    intro x hx
    simp [pathGo] at hx
  | cons w rest ih =>
    intro st
    obtain ⟨hcT, hcB, hlT, hlB, hkind, hfilt, hcur⟩ :=
      legStep_facts ops v hv st w (hnn _)
    obtain ⟨ihT, ihB, ihK, ihF⟩ := ih (legStep ops v st w).2
    have hstep : pathGo ops v st (w :: rest) =
        (legStep ops v st w).1 ++ pathGo ops v (legStep ops v st w).2 rest := rfl
    refine ⟨?_, ?_, ?_, ?_⟩
    · rw [hstep, List.map_append, chain_append_getLastD, hlT]
      exact ⟨hcT, ihT⟩
    · rw [hstep, List.map_append, chain_append_getLastD, hlB]
      exact ⟨hcB, ihB⟩
    · intro x hx
      rw [hstep] at hx
      rcases List.mem_append.mp hx with hx | hx
      · exact hkind x hx
      · exact ihK x hx
    · rw [hstep, List.filter_append, List.map_append, hfilt, ihF]
      rfl

end ExpanderLemmas

/-- C3: confirmed.  For every start position, viewpoint list, positive
velocity and battery capacity, and any nonnegative norm interpretation
(`np.linalg.norm` is nonnegative), the trajectory returned by
`generate_complete_path` begins with the unique `start` waypoint, its
`target` waypoints carry exactly the input viewpoints' identifiers in the
given order, elapsed time is strictly increasing along the sequence and
battery is non-increasing. -/
theorem generate_complete_path_invariants (ops : NumOps F) (s : Vec3 F)
    (ws : List (TargetWp F)) (v cap : F) (hv : 0 < v) (hnn : ∀ u, 0 ≤ ops.nrm u) :
    (generate_complete_path ops s ws v cap).head? =
        some { position := s, orientTriple := (0, 0, 0), wkind := .start, time := 0,
               battery := cap, palette_id := none, barcode_position := none } ∧
      ((generate_complete_path ops s ws v cap).filter
          (fun x => x.wkind == WpKind.start)).length = 1 ∧
      ((generate_complete_path ops s ws v cap).filter
          (fun x => x.wkind == WpKind.target)).map (fun x => x.palette_id) =
        ws.map (fun w => some w.palette_id) ∧
      List.Chain' (· < ·) ((generate_complete_path ops s ws v cap).map (fun x => x.time)) ∧
      List.Chain' (fun a b => b ≤ a)
        ((generate_complete_path ops s ws v cap).map (fun x => x.battery)) := by
  obtain ⟨hT, hB, hK, hF⟩ :=
    pathGo_invs ops v hv hnn ws { cur := s, time := 0, battery := cap }
  have hgen : generate_complete_path ops s ws v cap =
      { position := s, orientTriple := (0, 0, 0), wkind := .start, time := 0,
        battery := cap, palette_id := none,
        barcode_position := none } ::
        pathGo ops v { cur := s, time := 0, battery := cap } ws := rfl
  refine ⟨rfl, ?_, ?_, ?_, ?_⟩
  · rw [hgen, List.filter_cons]
    have hrest : (pathGo ops v { cur := s, time := 0, battery := cap } ws).filter
        (fun x => x.wkind == WpKind.start) = [] := by
      rw [List.filter_eq_nil_iff]
      intro x hx
      simpa using hK x hx
    simp [hrest]
  · rw [hgen, List.filter_cons]
    simpa using hF
  · rw [hgen, List.map_cons]
    exact hT
  · rw [hgen, List.map_cons]
    exact hB

/-- Witness for C3 at a concrete input over `ℚ`: one viewpoint, the
constant-1 norm, velocity 1 and capacity 100. -/
theorem generate_complete_path_invariants_witness :
    ((generate_complete_path (F := ℚ) ⟨fun _ => 1, fun _ _ => 0, fun _ => 0⟩ (0, 0, 0)
        [{ position := (1, 0, 0), orientTriple := (0, 0, 0), palette_id := "p1",
           barcode_position := (1, 0, 0) }] 1 100).filter
      (fun x => x.wkind == WpKind.start)).length = 1 :=
  (generate_complete_path_invariants (F := ℚ) ⟨fun _ => 1, fun _ _ => 0, fun _ => 0⟩ (0, 0, 0)
    [{ position := (1, 0, 0), orientTriple := (0, 0, 0), palette_id := "p1",
       barcode_position := (1, 0, 0) }] 1 100 (by norm_num) (fun u => by norm_num)).2.1

/-- C8: confirmed.  The elapsed time of the last waypoint produced by
`generate_complete_path` equals the total path length
(start → v₁ → ⋯ → vₙ, as measured by the norm parameter, Euclidean in the
source) divided by the velocity, plus 3 seconds of scan dwell per
viewpoint.  In exact field arithmetic the identity holds for every
velocity, in particular for every positive velocity as the claim states;
the per-leg travel time telescopes because the `num_points` sub-segments
each contribute `(distance/num_points)/v`. -/
theorem generate_complete_path_final_time (ops : NumOps F) (s : Vec3 F)
    (ws : List (TargetWp F)) (v cap : F) :
    ((generate_complete_path ops s ws v cap).map (fun x => x.time)).getLastD 0 =
      twPathLen ops.nrm s ws / v + 3 * (ws.length : F) := by
  have hgen : generate_complete_path ops s ws v cap =
      { position := s, orientTriple := (0, 0, 0), wkind := .start, time := 0,
        battery := cap, palette_id := none,
        barcode_position := none } ::
        pathGo ops v { cur := s, time := 0, battery := cap } ws := rfl
  rw [hgen, List.map_cons, List.getLastD_cons]
  have := pathGo_time ops v ws { cur := s, time := 0, battery := cap }
  rw [this]
  show (0 : F) + _ + _ = _
  rw [zero_add]

/-- C9: confirmed.  The tour optimizer is a pure function of its input, so
identical inputs give the identical visiting order (first conjunct), and
the `min(unvisited, key=...)` call that drives the nearest-neighbour
construction keeps the current best and replaces it only on a strictly
smaller key, so distance ties are won by the first occurrence (second
conjunct: every element before the returned minimiser has a strictly
larger key).  Since `unvisited` starts as `range(len(waypoints))` and
`remove` preserves order, the list is always sorted by input index, and on
a sorted list the returned minimiser is ≤ every index that ties with it
(third conjunct). -/
theorem optimize_waypoint_order_2opt_deterministic :
    (∀ (nrm : Vec3 F → F) (s : Vec3 F) (ws : List (TargetWp F)),
        optimize_waypoint_order_2opt nrm s ws = optimize_waypoint_order_2opt nrm s ws) ∧
      (∀ (k : ℕ → F) (x : ℕ) (xs : List ℕ),
        ∃ m pre post,
          pythonMin k (x :: xs) = some m ∧ x :: xs = pre ++ m :: post ∧
            (∀ y ∈ x :: xs, k m ≤ k y) ∧ ∀ y ∈ pre, k m < k y) ∧
      ∀ (k : ℕ → F) (l : List ℕ), l.Sorted (· < ·) →
        ∀ m, pythonMin k l = some m → ∀ y ∈ l, k y ≤ k m → m ≤ y := by
  refine ⟨fun _ _ _ => rfl, fun k x xs => pythonMin_first k x xs, ?_⟩
  intro k l hsort m hpm y hy hky
  cases l with
  | nil => simp [pythonMin] at hpm
  | cons x xs =>
    obtain ⟨m', pre, post, hpm', hsplit, hmin, hpre⟩ := pythonMin_first k x xs
    rw [hpm'] at hpm
    have hmm : m' = m := Option.some.injEq _ _ ▸ hpm
    subst hmm
    rw [hsplit] at hy hsort
    have hcross := (List.pairwise_append.mp hsort).2.1
    rcases List.mem_append.mp hy with hy | hy
    · exact absurd (hpre y hy) (not_lt.mpr hky)
    · rcases List.mem_cons.mp hy with hy | hy
      · rw [hy]
      · exact le_of_lt ((List.pairwise_cons.mp hcross).1 y hy)

/-- Witness for C9: on input indices `[0, 1, 2]` with key values
`1, 0, 0` the construction's tie between indices 1 and 2 is won by the
first occurrence, index 1, which is ≤ the tying index 2. -/
theorem optimize_waypoint_order_2opt_deterministic_witness :
    pythonMin (fun i => if i = 0 then (1 : ℚ) else 0) [0, 1, 2] = some 1 ∧ (1 : ℕ) ≤ 2 := by
  refine ⟨by decide, ?_⟩
  exact optimize_waypoint_order_2opt_deterministic.2.2
    (fun i => if i = 0 then (1 : ℚ) else 0) [0, 1, 2] (by decide) 1 (by decide) 2
    (by decide) (by decide)

/-- C5: refuted on the code.  Both `triangulate_points`
(`3d_pose_est.py` line 38) and `triangulate` (`post_est_3d.py` line 40)
dehomogenise by dividing by the fourth homogeneous coordinate with no
guard whatsoever: on a degenerate pair (coinciding or colinear camera
centres) the fourth coordinate is zero and the code silently returns the
non-finite quotients (division by zero in the field model) instead of
raising a `DegenerateGeometryError`; no error path exists in the source.
Concretely, the homogeneous point (1, 2, 3, 0) is mapped to a value
instead of an error. -/
theorem triangulate_degenerate_no_error :
    triangulate_points ((1 : ℚ), 2, 3, 0) = (0, 0, 0) := by
  norm_num [triangulate_points]

/-- C6: refuted on the code.  `fit_plane` (`post_est_3d.py` lines 43-49)
performs no point-count check: on the two-point input
`[(0,0,0), (2,0,0)]` — underdetermined per the specification — it happily
returns the defaulted pair `(normal, centroid)` built from the SVD of the
centered points, instead of raising an `InsufficientPointsError`.  The
statement holds for every model `svdf` of `np.linalg.svd(...)[2][-1]`. -/
theorem fit_plane_two_points_no_error (svdf : List (Vec3 ℚ) → Vec3 ℚ) :
    fit_plane svdf [(0, 0, 0), (2, 0, 0)] = (svdf [(-1, 0, 0), (1, 0, 0)], (1, 0, 0)) := by
  norm_num [fit_plane, vecMean]

/-- C10: confirmed.  When `create_optimized_trajectory` is called with
`start_position = None` it plans from the default start
`np.array([0, 0, 2.0])` (`flight_optimization.py` lines 37-39), and the
first waypoint of the returned trajectory is the `start` waypoint at
exactly that position. -/
theorem create_optimized_trajectory_default_start (ops : NumOps F)
    (barcode_positions : List (BarcodeEntry F)) (max_velocity battery_capacity : F) :
    (create_optimized_trajectory ops barcode_positions none max_velocity
        battery_capacity).head? =
      some { position := (0, 0, 2), orientTriple := (0, 0, 0), wkind := .start, time := 0,
             battery := battery_capacity, palette_id := none, barcode_position := none } := by
  rfl

section CxEval

lemma eNv (a b c r : ℝ) (h : a ^ 2 + b ^ 2 + c ^ 2 = r ^ 2) (hr : 0 ≤ r) :
    euclNorm (a, b, c) = r := by
  rw [euclNorm]
  show Real.sqrt (a ^ 2 + b ^ 2 + c ^ 2) = r
  rw [h, Real.sqrt_sq hr]

lemma sqrt17_gt_3 : (3 : ℝ) < Real.sqrt 17 := by
  rw [show (3 : ℝ) = Real.sqrt 9 from by
    rw [show (9 : ℝ) = 3 ^ 2 by norm_num, Real.sqrt_sq (by norm_num)]]
  exact Real.sqrt_lt_sqrt (by norm_num) (by norm_num)

lemma sqrt17_lt_5 : Real.sqrt 17 < 5 := by
  rw [show (5 : ℝ) = Real.sqrt 25 from by
    rw [show (25 : ℝ) = 5 ^ 2 by norm_num, Real.sqrt_sq (by norm_num)]]
  exact Real.sqrt_lt_sqrt (by norm_num) (by norm_num)

lemma cxe0 : euclNorm (vsub ((0 : ℝ), 4, 0) ((0 : ℝ), 1, 0)) = 3 := by
  rw [show vsub ((0 : ℝ), 4, 0) ((0 : ℝ), 1, 0) = ((0 : ℝ), 3, 0) from by rw [vsub]; norm_num]
  exact eNv _ _ _ _ (by norm_num) (by norm_num)

lemma cxe1 : euclNorm (vsub ((4 : ℝ), 1, 0) ((0 : ℝ), 1, 0)) = 4 := by
  rw [show vsub ((4 : ℝ), 1, 0) ((0 : ℝ), 1, 0) = ((4 : ℝ), 0, 0) from by rw [vsub]; norm_num]
  exact eNv _ _ _ _ (by norm_num) (by norm_num)

lemma cxe2 : euclNorm (vsub ((0 : ℝ), 2, 0) ((0 : ℝ), 1, 0)) = 1 := by
  rw [show vsub ((0 : ℝ), 2, 0) ((0 : ℝ), 1, 0) = ((0 : ℝ), 1, 0) from by rw [vsub]; norm_num]
  exact eNv _ _ _ _ (by norm_num) (by norm_num)

lemma cxe3 : euclNorm (vsub ((0 : ℝ), 0, 0) ((0 : ℝ), 1, 0)) = 1 := by
  rw [show vsub ((0 : ℝ), 0, 0) ((0 : ℝ), 1, 0) = ((0 : ℝ), -1, 0) from by rw [vsub]; norm_num]
  exact eNv _ _ _ _ (by norm_num) (by norm_num)

lemma cxd02 : euclNorm (vsub ((0 : ℝ), 4, 0) ((0 : ℝ), 2, 0)) = 2 := by
  rw [show vsub ((0 : ℝ), 4, 0) ((0 : ℝ), 2, 0) = ((0 : ℝ), 2, 0) from by rw [vsub]; norm_num]
  exact eNv _ _ _ _ (by norm_num) (by norm_num)

lemma cxd12 : euclNorm (vsub ((4 : ℝ), 1, 0) ((0 : ℝ), 2, 0)) = Real.sqrt 17 := by
  rw [show vsub ((4 : ℝ), 1, 0) ((0 : ℝ), 2, 0) = ((4 : ℝ), -1, 0) from by rw [vsub]; norm_num]
  rw [euclNorm]
  norm_num

lemma cxd32 : euclNorm (vsub ((0 : ℝ), 0, 0) ((0 : ℝ), 2, 0)) = 2 := by
  rw [show vsub ((0 : ℝ), 0, 0) ((0 : ℝ), 2, 0) = ((0 : ℝ), -2, 0) from by rw [vsub]; norm_num]
  exact eNv _ _ _ _ (by norm_num) (by norm_num)

lemma cxd10 : euclNorm (vsub ((4 : ℝ), 1, 0) ((0 : ℝ), 4, 0)) = 5 := by
  rw [show vsub ((4 : ℝ), 1, 0) ((0 : ℝ), 4, 0) = ((4 : ℝ), -3, 0) from by rw [vsub]; norm_num]
  exact eNv _ _ _ _ (by norm_num) (by norm_num)

lemma cxd30 : euclNorm (vsub ((0 : ℝ), 0, 0) ((0 : ℝ), 4, 0)) = 4 := by
  rw [show vsub ((0 : ℝ), 0, 0) ((0 : ℝ), 4, 0) = ((0 : ℝ), -4, 0) from by rw [vsub]; norm_num]
  exact eNv _ _ _ _ (by norm_num) (by norm_num)

lemma cxd13 : euclNorm (vsub ((4 : ℝ), 1, 0) ((0 : ℝ), 0, 0)) = Real.sqrt 17 := by
  rw [show vsub ((4 : ℝ), 1, 0) ((0 : ℝ), 0, 0) = ((4 : ℝ), 1, 0) from by rw [vsub]; norm_num]
  rw [euclNorm]
  norm_num

lemma cxd20 : euclNorm (vsub ((0 : ℝ), 2, 0) ((0 : ℝ), 4, 0)) = 2 := by
  rw [show vsub ((0 : ℝ), 2, 0) ((0 : ℝ), 4, 0) = ((0 : ℝ), -2, 0) from by rw [vsub]; norm_num]
  exact eNv _ _ _ _ (by norm_num) (by norm_num)

lemma cxd31 : euclNorm (vsub ((0 : ℝ), 0, 0) ((4 : ℝ), 1, 0)) = Real.sqrt 17 := by
  rw [show vsub ((0 : ℝ), 0, 0) ((4 : ℝ), 1, 0) = ((-4 : ℝ), -1, 0) from by rw [vsub]; norm_num]
  rw [euclNorm]
  norm_num

lemma cxd23 : euclNorm (vsub ((0 : ℝ), 2, 0) ((0 : ℝ), 0, 0)) = 2 := by
  rw [show vsub ((0 : ℝ), 2, 0) ((0 : ℝ), 0, 0) = ((0 : ℝ), 2, 0) from by rw [vsub]; norm_num]
  exact eNv _ _ _ _ (by norm_num) (by norm_num)

lemma cxd01 : euclNorm (vsub ((0 : ℝ), 4, 0) ((4 : ℝ), 1, 0)) = 5 := by
  rw [show vsub ((0 : ℝ), 4, 0) ((4 : ℝ), 1, 0) = ((-4 : ℝ), 3, 0) from by rw [vsub]; norm_num]
  exact eNv _ _ _ _ (by norm_num) (by norm_num)

lemma cxd21 : euclNorm (vsub ((0 : ℝ), 2, 0) ((4 : ℝ), 1, 0)) = Real.sqrt 17 := by
  rw [show vsub ((0 : ℝ), 2, 0) ((4 : ℝ), 1, 0) = ((-4 : ℝ), 1, 0) from by rw [vsub]; norm_num]
  rw [euclNorm]
  norm_num

lemma cxd03 : euclNorm (vsub ((0 : ℝ), 4, 0) ((0 : ℝ), 0, 0)) = 4 := by
  rw [show vsub ((0 : ℝ), 4, 0) ((0 : ℝ), 0, 0) = ((0 : ℝ), 4, 0) from by rw [vsub]; norm_num]
  exact eNv _ _ _ _ (by norm_num) (by norm_num)

/-- On the counterexample input the nearest-neighbour construction
returns the tour 2, 0, 3, 1 (both distance ties are broken by index). -/
lemma nnTour_cx :
    nnTour euclNorm ((0 : ℝ), 1, 0) cxPositions = [2, 0, 3, 1] := by
  have h17l := sqrt17_gt_3
  simp only [nnTour, nnGo, pythonMin, cxPositions,
    show ([((0 : ℝ), 4, 0), ((4 : ℝ), 1, 0), ((0 : ℝ), 2, 0), ((0 : ℝ), 0, 0)] :
        List (Vec3 ℝ)).length = 4 from rfl,
    show List.range 4 = [0, 1, 2, 3] from rfl,
    show posAt [((0 : ℝ), 4, 0), ((4 : ℝ), 1, 0), ((0 : ℝ), 2, 0), ((0 : ℝ), 0, 0)] 0
      = ((0 : ℝ), 4, 0) from rfl,
    show posAt [((0 : ℝ), 4, 0), ((4 : ℝ), 1, 0), ((0 : ℝ), 2, 0), ((0 : ℝ), 0, 0)] 1
      = ((4 : ℝ), 1, 0) from rfl,
    show posAt [((0 : ℝ), 4, 0), ((4 : ℝ), 1, 0), ((0 : ℝ), 2, 0), ((0 : ℝ), 0, 0)] 2
      = ((0 : ℝ), 2, 0) from rfl,
    show posAt [((0 : ℝ), 4, 0), ((4 : ℝ), 1, 0), ((0 : ℝ), 2, 0), ((0 : ℝ), 0, 0)] 3
      = ((0 : ℝ), 0, 0) from rfl,
    show ([0, 1, 2, 3] : List ℕ).erase 2 = [0, 1, 3] from rfl,
    show ([0, 1, 3] : List ℕ).erase 0 = [1, 3] from rfl,
    show ([1, 3] : List ℕ).erase 3 = [1] from rfl,
    show ([1] : List ℕ).erase 1 = [] from rfl,
    List.foldl_cons, List.foldl_nil,
    cxe0, cxe1, cxe2, cxe3, cxd02, cxd12, cxd32, cxd10, cxd30, cxd13,
    show ¬ ((4 : ℝ) < 3) from by norm_num,
    show ((1 : ℝ) < 3) from by norm_num,
    show ¬ ((1 : ℝ) < 1) from by norm_num,
    show ¬ (Real.sqrt 17 < 2) from by linarith,
    show ¬ ((2 : ℝ) < 2) from by norm_num,
    show ((4 : ℝ) < 5) from by norm_num, reduceIte]

/-- On the nearest-neighbour tour the code's first accepted 2-opt move is
at (i, j) = (1, 3); its comparison uses the wrap-around edge
`tour[(3+1) % 4] = tour[0]`. -/
lemma findImprove_cx1 :
    findImprove euclNorm cxPositions [2, 0, 3, 1] = some [2, 0, 1, 3] := by
  have h17l := sqrt17_gt_3
  have h17u := sqrt17_lt_5
  simp only [findImprove, distCurrent, distNew, cxPositions,
    show ([2, 0, 3, 1] : List ℕ).length = 4 from rfl,
    show (4 : ℕ) - 2 = 2 from rfl,
    show List.range 2 = [0, 1] from rfl,
    show (0 : ℕ) + 2 = 2 from rfl,
    show List.range' 2 2 = [2, 3] from rfl,
    show (1 : ℕ) + 2 = 3 from rfl,
    show (4 : ℕ) - 3 = 1 from rfl,
    show List.range' 3 1 = [3] from rfl,
    List.findSome?_cons, List.findSome?_nil,
    show ([2, 0, 3, 1] : List ℕ).getD 0 0 = 2 from rfl,
    show ([2, 0, 3, 1] : List ℕ).getD 1 0 = 0 from rfl,
    show ([2, 0, 3, 1] : List ℕ).getD 2 0 = 3 from rfl,
    show ([2, 0, 3, 1] : List ℕ).getD 3 0 = 1 from rfl,
    show ((2 : ℕ) + 1) % 4 = 3 from rfl,
    show ((3 : ℕ) + 1) % 4 = 0 from rfl,
    show posAt [((0 : ℝ), 4, 0), ((4 : ℝ), 1, 0), ((0 : ℝ), 2, 0), ((0 : ℝ), 0, 0)] 0
      = ((0 : ℝ), 4, 0) from rfl,
    show posAt [((0 : ℝ), 4, 0), ((4 : ℝ), 1, 0), ((0 : ℝ), 2, 0), ((0 : ℝ), 0, 0)] 1
      = ((4 : ℝ), 1, 0) from rfl,
    show posAt [((0 : ℝ), 4, 0), ((4 : ℝ), 1, 0), ((0 : ℝ), 2, 0), ((0 : ℝ), 0, 0)] 2
      = ((0 : ℝ), 2, 0) from rfl,
    show posAt [((0 : ℝ), 4, 0), ((4 : ℝ), 1, 0), ((0 : ℝ), 2, 0), ((0 : ℝ), 0, 0)] 3
      = ((0 : ℝ), 0, 0) from rfl,
    cxd20, cxd31, cxd23, cxd01, cxd12, cxd21, cxd02, cxd03, cxd32,
    show ¬ ((2 : ℝ) + 5 < 2 + Real.sqrt 17) from by linarith,
    show ¬ (Real.sqrt 17 + 2 < 2 + Real.sqrt 17) from by linarith,
    show ((5 : ℝ) + 2 < 4 + Real.sqrt 17) from by linarith,
    show swapSlice [2, 0, 3, 1] 1 3 = [2, 0, 1, 3] from rfl, reduceIte]

/-- The swapped tour 2, 0, 1, 3 is 2-opt locally optimal for the code's
wrap-around comparison. -/
lemma findImprove_cx2 :
    findImprove euclNorm cxPositions [2, 0, 1, 3] = none := by
  have h17l := sqrt17_gt_3
  have h17u := sqrt17_lt_5
  simp only [findImprove, distCurrent, distNew, cxPositions,
    show ([2, 0, 1, 3] : List ℕ).length = 4 from rfl,
    show (4 : ℕ) - 2 = 2 from rfl,
    show List.range 2 = [0, 1] from rfl,
    show (0 : ℕ) + 2 = 2 from rfl,
    show List.range' 2 2 = [2, 3] from rfl,
    show (1 : ℕ) + 2 = 3 from rfl,
    show (4 : ℕ) - 3 = 1 from rfl,
    show List.range' 3 1 = [3] from rfl,
    List.findSome?_cons, List.findSome?_nil,
    show ([2, 0, 1, 3] : List ℕ).getD 0 0 = 2 from rfl,
    show ([2, 0, 1, 3] : List ℕ).getD 1 0 = 0 from rfl,
    show ([2, 0, 1, 3] : List ℕ).getD 2 0 = 1 from rfl,
    show ([2, 0, 1, 3] : List ℕ).getD 3 0 = 3 from rfl,
    show ((2 : ℕ) + 1) % 4 = 3 from rfl,
    show ((3 : ℕ) + 1) % 4 = 0 from rfl,
    show posAt [((0 : ℝ), 4, 0), ((4 : ℝ), 1, 0), ((0 : ℝ), 2, 0), ((0 : ℝ), 0, 0)] 0
      = ((0 : ℝ), 4, 0) from rfl,
    show posAt [((0 : ℝ), 4, 0), ((4 : ℝ), 1, 0), ((0 : ℝ), 2, 0), ((0 : ℝ), 0, 0)] 1
      = ((4 : ℝ), 1, 0) from rfl,
    show posAt [((0 : ℝ), 4, 0), ((4 : ℝ), 1, 0), ((0 : ℝ), 2, 0), ((0 : ℝ), 0, 0)] 2
      = ((0 : ℝ), 2, 0) from rfl,
    show posAt [((0 : ℝ), 4, 0), ((4 : ℝ), 1, 0), ((0 : ℝ), 2, 0), ((0 : ℝ), 0, 0)] 3
      = ((0 : ℝ), 0, 0) from rfl,
    cxd20, cxd13, cxd21, cxd03, cxd32, cxd23, cxd02, cxd01, cxd12,
    show ¬ (Real.sqrt 17 + 4 < 2 + Real.sqrt 17) from by linarith,
    show ¬ ((2 : ℝ) + 2 < 2 + 2) from by norm_num,
    show ¬ ((4 : ℝ) + Real.sqrt 17 < 5 + 2) from by linarith, reduceIte]

/-- On the counterexample input the optimizer returns the tour
2, 0, 1, 3 (one accepted wrap-around-driven swap, then local optimum). -/
lemma optimize_cx :
    optimize_waypoint_order_2opt euclNorm ((0 : ℝ), 1, 0) cxWaypoints = [2, 0, 1, 3] := by
  have h1 : twoOptLoop euclNorm cxPositions 25 [2, 0, 3, 1] = [2, 0, 1, 3] := by
    simp only [twoOptLoop, findImprove_cx1, findImprove_cx2]
  simp only [optimize_waypoint_order_2opt,
    show cxWaypoints.isEmpty = false from rfl,
    show cxWaypoints.map (fun x => x.position) = cxPositions from rfl,
    show cxWaypoints.length = 4 from rfl,
    show Nat.factorial 4 + 1 = 25 from rfl,
    Bool.false_eq_true, if_false,
    h1]
  rw [nnTour_cx]
  exact h1

lemma openPathLen_cx1 :
    openPathLen euclNorm ((0 : ℝ), 1, 0) cxPositions [2, 0, 3, 1] = 7 + Real.sqrt 17 := by
  simp only [openPathLen, cxPositions,
    show posAt [((0 : ℝ), 4, 0), ((4 : ℝ), 1, 0), ((0 : ℝ), 2, 0), ((0 : ℝ), 0, 0)] 0
      = ((0 : ℝ), 4, 0) from rfl,
    show posAt [((0 : ℝ), 4, 0), ((4 : ℝ), 1, 0), ((0 : ℝ), 2, 0), ((0 : ℝ), 0, 0)] 1
      = ((4 : ℝ), 1, 0) from rfl,
    show posAt [((0 : ℝ), 4, 0), ((4 : ℝ), 1, 0), ((0 : ℝ), 2, 0), ((0 : ℝ), 0, 0)] 2
      = ((0 : ℝ), 2, 0) from rfl,
    show posAt [((0 : ℝ), 4, 0), ((4 : ℝ), 1, 0), ((0 : ℝ), 2, 0), ((0 : ℝ), 0, 0)] 3
      = ((0 : ℝ), 0, 0) from rfl,
    cxe2, cxd02, cxd30, cxd13]
  ring

lemma openPathLen_cx2 :
    openPathLen euclNorm ((0 : ℝ), 1, 0) cxPositions [2, 0, 1, 3] = 8 + Real.sqrt 17 := by
  simp only [openPathLen, cxPositions,
    show posAt [((0 : ℝ), 4, 0), ((4 : ℝ), 1, 0), ((0 : ℝ), 2, 0), ((0 : ℝ), 0, 0)] 0
      = ((0 : ℝ), 4, 0) from rfl,
    show posAt [((0 : ℝ), 4, 0), ((4 : ℝ), 1, 0), ((0 : ℝ), 2, 0), ((0 : ℝ), 0, 0)] 1
      = ((4 : ℝ), 1, 0) from rfl,
    show posAt [((0 : ℝ), 4, 0), ((4 : ℝ), 1, 0), ((0 : ℝ), 2, 0), ((0 : ℝ), 0, 0)] 2
      = ((0 : ℝ), 2, 0) from rfl,
    show posAt [((0 : ℝ), 4, 0), ((4 : ℝ), 1, 0), ((0 : ℝ), 2, 0), ((0 : ℝ), 0, 0)] 3
      = ((0 : ℝ), 0, 0) from rfl,
    cxe2, cxd02, cxd10, cxd31]
  ring

end CxEval

section CycleLemmas

lemma cycleLen_cons (nrm : Vec3 F → F) (p : Vec3 F) (rest : List (Vec3 F)) :
    cycleLen nrm (p :: rest) = pathLen nrm p (rest ++ [p]) := rfl

lemma pathLen_append (nrm : Vec3 F → F) :
    ∀ (u : List (Vec3 F)) (cur : Vec3 F) (v : List (Vec3 F)),
      pathLen nrm cur (u ++ v) = pathLen nrm cur u + pathLen nrm (u.getLastD cur) v := by
  intro u
  induction u with
  | nil =>
    intro cur v
    simp [pathLen]
  | cons p u' ih =>
    intro cur v
    simp only [List.cons_append, pathLen, List.getLastD_cons, List.append_eq, ih p]
    ring

lemma pathLen_rev (nrm : Vec3 F → F) (hsym : ∀ a b, nrm (vsub a b) = nrm (vsub b a)) :
    ∀ (l : List (Vec3 F)) (x y : Vec3 F),
      pathLen nrm x (l ++ [y]) = pathLen nrm y (l.reverse ++ [x]) := by
  intro l
  induction l with
  | nil =>
    intro x y
    simp [pathLen, hsym x y]
  | cons z l' ih =>
    intro x y
    have lhs : pathLen nrm x ((z :: l') ++ [y]) =
        nrm (vsub z x) + pathLen nrm y (l'.reverse ++ [z]) := by
      simp only [List.cons_append, pathLen, List.append_eq, ih z y]
    have rhs : pathLen nrm y ((z :: l').reverse ++ [x]) =
        pathLen nrm y (l'.reverse ++ [z]) + nrm (vsub x z) := by
      rw [List.reverse_cons, pathLen_append nrm (l'.reverse ++ [z]) y [x],
        List.getLastD_concat]
      simp [pathLen]
    rw [lhs, rhs, hsym z x]
    ring

lemma take_getLastD {γ : Type} :
    ∀ (t : List γ) (k : ℕ) (x : γ), k < t.length → (t.take (k + 1)).getLastD x = t.getD k x := by
  intro t
  induction t with
  | nil =>
    intro k x h
    simp at h
  | cons y ys ih =>
    intro k x h
    cases k with
    | zero => rfl
    | succ k' =>
      have hk : k' < ys.length := by
        simp only [List.length_cons] at h
        omega
      rw [show (y :: ys).take (k' + 1 + 1) = y :: ys.take (k' + 1) from rfl,
        List.getLastD_cons]
      rw [ih k' y hk]
      rw [List.getD_eq_getElem _ _ hk]
      rw [show (y :: ys).getD (k' + 1) x = ys.getD k' x from rfl,
        List.getD_eq_getElem _ _ hk]

lemma tourPoints_getD (ps : List (Vec3 F)) (t : List ℕ) (i : ℕ) (dflt : Vec3 F)
    (h : i < t.length) :
    (tourPoints ps t).getD i dflt = posAt ps (t.getD i 0) := by
  have h' : i < (tourPoints ps t).length := by simpa [tourPoints] using h
  rw [List.getD_eq_getElem _ _ h', List.getD_eq_getElem _ _ h]
  simp [tourPoints]

/-- Reversing the middle slice `[i+1..j]` of a closed polygon exchanges
the two cut edges for the two reconnection edges and leaves every other
edge length unchanged (using symmetry of the metric); the change in the
closed length is exactly `dist_new - dist_current` of the source. -/
lemma cycleLen_swapSlice (nrm : Vec3 F → F) (hsym : ∀ a b, nrm (vsub a b) = nrm (vsub b a))
    (L : List (Vec3 F)) (i j : ℕ) (hij : i + 2 ≤ j) (hj : j < L.length) :
    cycleLen nrm (L.take (i + 1) ++ ((L.drop (i + 1)).take (j - i)).reverse ++ L.drop (j + 1)) =
      cycleLen nrm L +
        (nrm (vsub (L.getD i (0, 0, 0)) (L.getD j (0, 0, 0))) +
          nrm (vsub (L.getD (i + 1) (0, 0, 0)) (L.getD ((j + 1) % L.length) (0, 0, 0)))) -
        (nrm (vsub (L.getD i (0, 0, 0)) (L.getD (i + 1) (0, 0, 0))) +
          nrm (vsub (L.getD j (0, 0, 0)) (L.getD ((j + 1) % L.length) (0, 0, 0)))) := by
  have hn : 0 < L.length := lt_of_le_of_lt (Nat.zero_le _) hj
  have hi1 : i + 1 < L.length := by omega
  have hi : i < L.length := by omega
  set A := L.take (i + 1) with hAdef
  set B := (L.drop (i + 1)).take (j - i) with hBdef
  set C := L.drop (j + 1) with hCdef
  have hBC : B ++ C = L.drop (i + 1) := by
    rw [hBdef, hCdef]
    have := List.take_append_drop (j - i) (L.drop (i + 1))
    rw [List.drop_drop] at this
    rw [show i + 1 + (j - i) = j + 1 from by omega] at this
    exact this
  have hL : A ++ (B ++ C) = L := by
    rw [hBC, hAdef]
    exact List.take_append_drop _ _
  have hAlen : A.length = i + 1 := by
    rw [hAdef, List.length_take]
    omega
  obtain ⟨a, A1, hA⟩ : ∃ a A1, A = a :: A1 := by
    cases hAe : A with
    | nil => rw [hAe] at hAlen; simp at hAlen
    | cons a A1 => exact ⟨a, A1, rfl⟩
  have ha : L.getD 0 (0, 0, 0) = a := by
    rw [← hL, hA]
    rfl
  have hdroplen : (L.drop (i + 1)).length = L.length - (i + 1) := List.length_drop _ _
  have hBlen : B.length = j - i := by
    rw [hBdef, List.length_take]
    omega
  obtain ⟨b, B1, hB⟩ : ∃ b B1, B = b :: B1 := by
    cases hBe : B with
    | nil =>
      rw [hBe] at hBlen
      simp at hBlen
      omega
    | cons b B1 => exact ⟨b, B1, rfl⟩
  have hb : L.getD (i + 1) (0, 0, 0) = b := by
    rw [← hL]
    have hlen' : i + 1 < (A ++ (B ++ C)).length := by
      rw [hL]
      exact hi1
    rw [List.getD_eq_getElem _ _ hlen']
    rw [List.getElem_append_right (show A.length ≤ i + 1 from by rw [hAlen])]
    simp [hAlen, hB]
  have hlastA : A1.getLastD a = L.getD i (0, 0, 0) := by
    have h0 : (L.take (i + 1)).getLastD a = L.getD i a := take_getLastD L i a hi
    rw [← hAdef, hA, List.getLastD_cons] at h0
    rw [h0, List.getD_eq_getElem _ _ hi, List.getD_eq_getElem _ _ hi]
  have hlastB : B1.getLastD b = L.getD j (0, 0, 0) := by
    have h0 : ((L.drop (i + 1)).take ((j - i - 1) + 1)).getLastD b =
        (L.drop (i + 1)).getD (j - i - 1) b := by
      apply take_getLastD
      rw [hdroplen]
      omega
    rw [show (j - i - 1) + 1 = j - i from by omega, ← hBdef, hB, List.getLastD_cons] at h0
    rw [h0]
    have hjd : j - i - 1 < (L.drop (i + 1)).length := by
      rw [hdroplen]
      omega
    rw [List.getD_eq_getElem _ _ hjd, List.getD_eq_getElem _ _ hj, List.getElem_drop]
    congr 1
    omega
  obtain ⟨c, γ, hD, hc⟩ : ∃ c γ, C ++ [a] = c :: γ ∧
      L.getD ((j + 1) % L.length) (0, 0, 0) = c := by
    rcases Nat.lt_or_ge (j + 1) L.length with hlt | hge
    · refine ⟨L.getD (j + 1) (0, 0, 0), L.drop (j + 2) ++ [a], ?_, ?_⟩
      · rw [hCdef, List.drop_eq_getElem_cons hlt, List.getD_eq_getElem _ _ hlt]
        rfl
      · rw [Nat.mod_eq_of_lt hlt]
    · have hjn : j + 1 = L.length := by omega
      refine ⟨a, [], ?_, ?_⟩
      · rw [hCdef, hjn, List.drop_length]
        rfl
      · rw [hjn, Nat.mod_self, ha]
  have horig : cycleLen nrm L =
      pathLen nrm a A1 + pathLen nrm b B1 + pathLen nrm c γ +
        nrm (vsub (L.getD i (0, 0, 0)) (L.getD (i + 1) (0, 0, 0))) +
        nrm (vsub (L.getD j (0, 0, 0)) (L.getD ((j + 1) % L.length) (0, 0, 0))) := by
    conv_lhs => rw [← hL, hA, hB]
    show pathLen nrm a ((A1 ++ ((b :: B1) ++ C)) ++ [a]) = _
    rw [List.append_assoc, pathLen_append nrm A1 a]
    rw [show ((b :: B1) ++ C) ++ [a] = b :: (B1 ++ (C ++ [a])) from by simp]
    rw [show pathLen nrm (A1.getLastD a) (b :: (B1 ++ (C ++ [a]))) =
        nrm (vsub b (A1.getLastD a)) + pathLen nrm b (B1 ++ (C ++ [a])) from rfl]
    rw [pathLen_append nrm B1 b, hD]
    rw [show pathLen nrm (B1.getLastD b) (c :: γ) =
        nrm (vsub c (B1.getLastD b)) + pathLen nrm c γ from rfl]
    rw [hlastA, hlastB, ← hb, ← hc]
    rw [hsym (L.getD (i + 1) (0, 0, 0)) (L.getD i (0, 0, 0)),
      hsym (L.getD ((j + 1) % L.length) (0, 0, 0)) (L.getD j (0, 0, 0))]
    ring
  have hswap :
      cycleLen nrm (A ++ B.reverse ++ C) =
        pathLen nrm a A1 + pathLen nrm b B1 + pathLen nrm c γ +
          nrm (vsub (L.getD i (0, 0, 0)) (L.getD j (0, 0, 0))) +
          nrm (vsub (L.getD (i + 1) (0, 0, 0)) (L.getD ((j + 1) % L.length) (0, 0, 0))) := by
    rw [hA, hB]
    rw [show (a :: A1) ++ (b :: B1).reverse ++ C = a :: (A1 ++ ((b :: B1).reverse ++ C)) from
      by simp]
    rw [cycleLen_cons]
    rw [List.append_assoc, pathLen_append nrm A1 a]
    rw [List.reverse_cons]
    rw [show (B1.reverse ++ [b] ++ C) ++ [a] = (B1.reverse ++ [b]) ++ (C ++ [a]) from by simp]
    rw [pathLen_append nrm (B1.reverse ++ [b])]
    rw [List.getLastD_concat]
    rw [← pathLen_rev nrm hsym B1 b]
    rw [pathLen_append nrm B1 b, hD]
    rw [show pathLen nrm (B1.getLastD b) [A1.getLastD a] =
        nrm (vsub (A1.getLastD a) (B1.getLastD b)) + 0 from rfl]
    rw [show pathLen nrm b (c :: γ) = nrm (vsub c b) + pathLen nrm c γ from rfl]
    rw [hlastA, hlastB, ← hb, ← hc]
    rw [hsym (L.getD ((j + 1) % L.length) (0, 0, 0)) (L.getD (i + 1) (0, 0, 0))]
    ring
  have hgoal : cycleLen nrm (A ++ B.reverse ++ C) =
      cycleLen nrm L +
        (nrm (vsub (L.getD i (0, 0, 0)) (L.getD j (0, 0, 0))) +
          nrm (vsub (L.getD (i + 1) (0, 0, 0)) (L.getD ((j + 1) % L.length) (0, 0, 0)))) -
        (nrm (vsub (L.getD i (0, 0, 0)) (L.getD (i + 1) (0, 0, 0))) +
          nrm (vsub (L.getD j (0, 0, 0)) (L.getD ((j + 1) % L.length) (0, 0, 0)))) := by
    rw [hswap, horig]
    ring
  exact hgoal

lemma tourPoints_swapSlice (ps : List (Vec3 F)) (t : List ℕ) (i j : ℕ) :
    tourPoints ps (swapSlice t i j) =
      (tourPoints ps t).take (i + 1) ++
        (((tourPoints ps t).drop (i + 1)).take (j - i)).reverse ++
        (tourPoints ps t).drop (j + 1) := by
  simp [tourPoints, swapSlice, List.map_append, List.map_reverse, List.map_take,
    List.map_drop]

lemma findImprove_cycleLen {nrm : Vec3 F → F} (hsym : ∀ a b, nrm (vsub a b) = nrm (vsub b a))
    {ps : List (Vec3 F)} {t t' : List ℕ}
    (h : findImprove nrm ps t = some t') :
    cycleLen nrm (tourPoints ps t') ≤ cycleLen nrm (tourPoints ps t) := by
  unfold findImprove at h
  obtain ⟨i, himem, hi⟩ := findSome?_mem h
  obtain ⟨j, hjmem, hj⟩ := findSome?_mem hi
  have hiB : i < t.length - 2 := List.mem_range.mp himem
  have hjB := List.mem_range'_1.mp hjmem
  have hij : i + 2 ≤ j := hjB.1
  have hjlen : j < t.length := by omega
  by_cases hacc : distNew nrm ps t i j < distCurrent nrm ps t i j
  · rw [if_pos hacc, Option.some.injEq] at hj
    rw [← hj, tourPoints_swapSlice]
    have hLlen : (tourPoints ps t).length = t.length := by simp [tourPoints]
    have hkey := cycleLen_swapSlice nrm hsym (tourPoints ps t) i j hij
      (by rw [hLlen]; exact hjlen)
    rw [hkey]
    have hgi : (tourPoints ps t).getD i (0, 0, 0) = posAt ps (t.getD i 0) :=
      tourPoints_getD ps t i _ (by omega)
    have hgi1 : (tourPoints ps t).getD (i + 1) (0, 0, 0) = posAt ps (t.getD (i + 1) 0) :=
      tourPoints_getD ps t (i + 1) _ (by omega)
    have hgj : (tourPoints ps t).getD j (0, 0, 0) = posAt ps (t.getD j 0) :=
      tourPoints_getD ps t j _ hjlen
    have hgj1 : (tourPoints ps t).getD ((j + 1) % (tourPoints ps t).length) (0, 0, 0) =
        posAt ps (t.getD ((j + 1) % t.length) 0) := by
      rw [hLlen]
      exact tourPoints_getD ps t ((j + 1) % t.length) _ (Nat.mod_lt _ (by omega))
    rw [hgi, hgi1, hgj, hgj1]
    unfold distNew distCurrent at hacc
    linarith
  · rw [if_neg hacc] at hj
    exact absurd hj Option.noConfusion

lemma twoOptLoop_cycleLen (nrm : Vec3 F → F) (hsym : ∀ a b, nrm (vsub a b) = nrm (vsub b a))
    (ps : List (Vec3 F)) :
    ∀ (fuel : ℕ) (t : List ℕ),
      cycleLen nrm (tourPoints ps (twoOptLoop nrm ps fuel t)) ≤
        cycleLen nrm (tourPoints ps t) := by
  intro fuel
  induction fuel with
  | zero => intro t; exact le_refl _
  | succ n ih =>
    intro t
    cases hf : findImprove nrm ps t with
    | none =>
      simp only [twoOptLoop, hf]
      exact le_refl _
    | some t' =>
      simp only [twoOptLoop, hf]
      exact (ih t').trans (findImprove_cycleLen hsym hf)

end CycleLemmas

/-- C1 counterexample: with start (0,1,0) and viewpoints (0,4,0), (4,1,0),
(0,2,0), (0,0,0) the nearest-neighbour tour is 2, 0, 3, 1 with open-path
length 7 + √17, but the 2-opt improvement step accepts the swap at
(i, j) = (1, 3) — its comparison counts the wrap-around edge
`tour[(j+1) % 4] = tour[0]` that is never flown — and returns the tour
2, 0, 1, 3 with strictly larger open-path length 8 + √17. -/
theorem optimize_2opt_open_length_cx :
    ¬ (openPathLen euclNorm ((0 : ℝ), 1, 0) cxPositions
          (optimize_waypoint_order_2opt euclNorm ((0 : ℝ), 1, 0) cxWaypoints) ≤
        openPathLen euclNorm ((0 : ℝ), 1, 0) cxPositions
          (nnTour euclNorm ((0 : ℝ), 1, 0) cxPositions)) := by
  rw [optimize_cx, nnTour_cx, openPathLen_cx1, openPathLen_cx2]
  push_neg
  linarith

/-- C2: refuted on the code (the specification flags exactly this as the
intended behaviour).  At the failing input — tour 2, 0, 3, 1 over
`cxPositions`, move (i, j) = (1, 3) — the source's comparison
(`dist_current`/`dist_new` with index `(j+1) % len(tour)`) prices the
wrap-around edge last→first at its real length √17 and accepts the swap
(7 < 4 + √17), whereas the zero-weight comparison the claim describes
(`distCurrentOpen`/`distNewOpen`) rejects it (5 + 0 < 4 + 0 is false).
The wrap-around edge is therefore included, not excluded. -/
theorem twoOpt_wraparound_edge_included :
    (distNew euclNorm cxPositions [2, 0, 3, 1] 1 3 <
        distCurrent euclNorm cxPositions [2, 0, 3, 1] 1 3) ∧
      ¬ (distNewOpen euclNorm cxPositions [2, 0, 3, 1] 1 3 <
        distCurrentOpen euclNorm cxPositions [2, 0, 3, 1] 1 3) := by
  have h17l := sqrt17_gt_3
  constructor
  · simp only [distCurrent, distNew, cxPositions,
      show ([2, 0, 3, 1] : List ℕ).length = 4 from rfl,
      show ([2, 0, 3, 1] : List ℕ).getD 1 0 = 0 from rfl,
      show ([2, 0, 3, 1] : List ℕ).getD 2 0 = 3 from rfl,
      show ([2, 0, 3, 1] : List ℕ).getD 3 0 = 1 from rfl,
      show ((3 : ℕ) + 1) % 4 = 0 from rfl,
      show ([2, 0, 3, 1] : List ℕ).getD 0 0 = 2 from rfl,
      show (1 : ℕ) + 1 = 2 from rfl,
      show posAt [((0 : ℝ), 4, 0), ((4 : ℝ), 1, 0), ((0 : ℝ), 2, 0), ((0 : ℝ), 0, 0)] 0
        = ((0 : ℝ), 4, 0) from rfl,
      show posAt [((0 : ℝ), 4, 0), ((4 : ℝ), 1, 0), ((0 : ℝ), 2, 0), ((0 : ℝ), 0, 0)] 1
        = ((4 : ℝ), 1, 0) from rfl,
      show posAt [((0 : ℝ), 4, 0), ((4 : ℝ), 1, 0), ((0 : ℝ), 2, 0), ((0 : ℝ), 0, 0)] 2
        = ((0 : ℝ), 2, 0) from rfl,
      show posAt [((0 : ℝ), 4, 0), ((4 : ℝ), 1, 0), ((0 : ℝ), 2, 0), ((0 : ℝ), 0, 0)] 3
        = ((0 : ℝ), 0, 0) from rfl,
      cxd03, cxd12, cxd01, cxd32]
    linarith
  · simp only [distCurrentOpen, distNewOpen, cxPositions,
      show ([2, 0, 3, 1] : List ℕ).length = 4 from rfl,
      show (3 : ℕ) + 1 = 4 from rfl,
      show ([2, 0, 3, 1] : List ℕ).getD 1 0 = 0 from rfl,
      show ([2, 0, 3, 1] : List ℕ).getD 2 0 = 3 from rfl,
      show ([2, 0, 3, 1] : List ℕ).getD 3 0 = 1 from rfl,
      show (1 : ℕ) + 1 = 2 from rfl,
      show posAt [((0 : ℝ), 4, 0), ((4 : ℝ), 1, 0), ((0 : ℝ), 2, 0), ((0 : ℝ), 0, 0)] 0
        = ((0 : ℝ), 4, 0) from rfl,
      show posAt [((0 : ℝ), 4, 0), ((4 : ℝ), 1, 0), ((0 : ℝ), 2, 0), ((0 : ℝ), 0, 0)] 1
        = ((4 : ℝ), 1, 0) from rfl,
      show posAt [((0 : ℝ), 4, 0), ((4 : ℝ), 1, 0), ((0 : ℝ), 2, 0), ((0 : ℝ), 0, 0)] 3
        = ((0 : ℝ), 0, 0) from rfl,
      cxd03, cxd01, if_pos]
    norm_num



/-- C7 counterexample: on the single leg from (0,0,0) to (5,0,0) the
Euclidean distance is 5 > 2, the claim predicts ⌊5/2⌋ = 2 intermediate
waypoints, but `range(1, num_points)` emits only `num_points - 1 = 1` of
them. -/
theorem generate_complete_path_interp_count_cx :
    ((generate_complete_path euclOps ((0 : ℝ), 0, 0)
          [{ position := (5, 0, 0), orientTriple := (0, 0, 0), palette_id := "p1",
             barcode_position := (5, 0, 0) }] 2 100).filter
        (fun x => x.wkind == WpKind.intermediate)).length = 1 ∧
      Int.toNat ⌊euclNorm (vsub ((5 : ℝ), 0, 0) ((0 : ℝ), 0, 0)) / 2⌋ = 2 := by
  have hvs : vsub ((5 : ℝ), 0, 0) ((0 : ℝ), 0, 0) = ((5 : ℝ), 0, 0) := by
    rw [vsub]
    norm_num
  have hn5 : euclNorm ((5 : ℝ), 0, 0) = 5 := by
    rw [euclNorm]
    norm_num
    rw [show (25 : ℝ) = 5 ^ 2 by norm_num, Real.sqrt_sq (by norm_num)]
  have hfl : ⌊(5 : ℝ) / 2⌋ = 2 := by
    rw [Int.floor_eq_iff]
    norm_num
  have hfl2 : Int.toNat ⌊(5 : ℝ) / 2⌋ = 2 := by
    rw [hfl]
    rfl
  set w0 : TargetWp ℝ := ⟨((5 : ℝ), 0, 0), (0, 0, 0), "p1", ((5 : ℝ), 0, 0)⟩ with hw0
  set st0 : PathState ℝ := ⟨((0 : ℝ), 0, 0), 0, 100⟩ with hst0
  have hd : euclOps.nrm (vsub w0.position st0.cur) = 5 := by
    show euclNorm (vsub ((5 : ℝ), 0, 0) ((0 : ℝ), 0, 0)) = 5
    rw [hvs, hn5]
  constructor
  · obtain ⟨E, hE1, _, _, hEpos⟩ := legStep_spec euclOps 2 st0 w0
    rw [hd] at hE1 hEpos
    obtain ⟨hlen, hget⟩ := hEpos (by norm_num)
    rw [hfl2] at hlen
    have hlen1 : E.length = 1 := by
      rw [hlen]
      rfl
    have hgen : generate_complete_path euclOps ((0 : ℝ), 0, 0) [w0] 2 100 =
        { position := ((0 : ℝ), 0, 0), orientTriple := (0, 0, 0), wkind := .start, time := 0,
          battery := 100, palette_id := none,
          barcode_position := none } ::
          ((legStep euclOps 2 st0 w0).1 ++ []) := rfl
    rw [hgen, hE1, List.filter_cons, List.append_nil, List.filter_append]
    have hfE : E.filter (fun x => x.wkind == WpKind.intermediate) = E := by
      apply List.filter_eq_self.mpr
      intro x hx
      obtain ⟨n, hmem⟩ := List.mem_iff_get.mp hx
      rw [← hmem]
      cases n with
      | mk nv nh =>
        rw [hget nv nh]
        rfl
    rw [hfE]
    simp [mkTargetWp, hlen1]
  · rw [hvs, hn5, hfl]
    rfl

/-- C7 amended: for a leg whose distance `d` exceeds the 2-meter spacing,
the expansion emits exactly `⌊d/2⌋ - 1` intermediate waypoints (not
`⌊d/2⌋`), at parametric fractions `(1+idx)/⌊d/2⌋` along the straight
segment, each advancing elapsed time by `(d/⌊d/2⌋)/max_velocity` and
decrementing battery by `(d/⌊d/2⌋) × 0.1`, followed by the single
`target` waypoint. -/
theorem legStep_interpolation (ops : NumOps F) (v : F) (st : PathState F) (w : TargetWp F)
    (hd : 2 < ops.nrm (vsub w.position st.cur)) :
    ∃ E : List (Waypoint F),
      (legStep ops v st w).1 =
          E ++ [mkTargetWp w (st.time + ops.nrm (vsub w.position st.cur) / v + 3)
            (st.battery - ops.nrm (vsub w.position st.cur) * (1 / 10) - 3 * (1 / 20))] ∧
        E.length = Int.toNat ⌊ops.nrm (vsub w.position st.cur) / 2⌋ - 1 ∧
        ∀ (idx : ℕ) (h : idx < E.length),
          E.get ⟨idx, h⟩ =
            mkInterWp ops st.cur (vsub w.position st.cur)
              (Int.toNat ⌊ops.nrm (vsub w.position st.cur) / 2⌋) (1 + idx)
              (st.time + ((idx + 1 : ℕ) : F) *
                (ops.nrm (vsub w.position st.cur) *
                  (1 / ((Int.toNat ⌊ops.nrm (vsub w.position st.cur) / 2⌋ : ℕ) : F)) / v))
              (st.battery - ((idx + 1 : ℕ) : F) *
                (ops.nrm (vsub w.position st.cur) *
                  (1 / ((Int.toNat ⌊ops.nrm (vsub w.position st.cur) / 2⌋ : ℕ) : F)) *
                  (1 / 10))) := by
  have hfl1 : (1 : ℤ) ≤ ⌊ops.nrm (vsub w.position st.cur) / 2⌋ := by
    apply Int.le_floor.mpr
    push_cast
    linarith
  have hmax : max 1 (Int.toNat ⌊ops.nrm (vsub w.position st.cur) / 2⌋) =
      Int.toNat ⌊ops.nrm (vsub w.position st.cur) / 2⌋ := by
    apply max_eq_right
    omega
  obtain ⟨E, hE1, _, _, hEpos⟩ := legStep_spec ops v st w
  obtain ⟨hlen, hget⟩ := hEpos hd
  rw [hmax] at hlen hget
  exact ⟨E, hE1, hlen, hget⟩

/-- Witness for C7 amended, over `ℚ` with the first-coordinate norm on the
leg (0,0,0) → (5,0,0): distance 5, `⌊5/2⌋ - 1 = 1` intermediate. -/
theorem legStep_interpolation_witness :
    ∃ E : List (Waypoint ℚ),
      (legStep ⟨fun u => u.1, fun _ _ => 0, fun _ => 0⟩ 2 ⟨((0 : ℚ), 0, 0), 0, 100⟩
            ⟨((5 : ℚ), 0, 0), (0, 0, 0), "p1", ((5 : ℚ), 0, 0)⟩).1 =
          E ++ [mkTargetWp ⟨((5 : ℚ), 0, 0), (0, 0, 0), "p1", ((5 : ℚ), 0, 0)⟩
            ((0 : ℚ) + (vsub ((5 : ℚ), 0, 0) ((0 : ℚ), 0, 0)).1 / 2 + 3)
            ((100 : ℚ) - (vsub ((5 : ℚ), 0, 0) ((0 : ℚ), 0, 0)).1 * (1 / 10) - 3 * (1 / 20))] ∧
        E.length = Int.toNat ⌊(vsub ((5 : ℚ), 0, 0) ((0 : ℚ), 0, 0)).1 / 2⌋ - 1 ∧
        ∀ (idx : ℕ) (h : idx < E.length),
          E.get ⟨idx, h⟩ =
            mkInterWp ⟨fun u => u.1, fun _ _ => 0, fun _ => 0⟩ ((0 : ℚ), 0, 0)
              (vsub ((5 : ℚ), 0, 0) ((0 : ℚ), 0, 0))
              (Int.toNat ⌊(vsub ((5 : ℚ), 0, 0) ((0 : ℚ), 0, 0)).1 / 2⌋) (1 + idx)
              ((0 : ℚ) + ((idx + 1 : ℕ) : ℚ) *
                ((vsub ((5 : ℚ), 0, 0) ((0 : ℚ), 0, 0)).1 *
                  (1 / ((Int.toNat ⌊(vsub ((5 : ℚ), 0, 0) ((0 : ℚ), 0, 0)).1 / 2⌋ : ℕ) : ℚ)) / 2))
              ((100 : ℚ) - ((idx + 1 : ℕ) : ℚ) *
                ((vsub ((5 : ℚ), 0, 0) ((0 : ℚ), 0, 0)).1 *
                  (1 / ((Int.toNat ⌊(vsub ((5 : ℚ), 0, 0) ((0 : ℚ), 0, 0)).1 / 2⌋ : ℕ) : ℚ)) *
                  (1 / 10))) :=
  legStep_interpolation ⟨fun u => u.1, fun _ _ => 0, fun _ => 0⟩ 2 ⟨((0 : ℚ), 0, 0), 0, 100⟩
    ⟨((5 : ℚ), 0, 0), (0, 0, 0), "p1", ((5 : ℚ), 0, 0)⟩ (by norm_num [vsub])

/-- C1 (amended): for every symmetric norm, the order returned by
`optimize_waypoint_order_2opt` never exceeds the nearest-neighbour order
in the quantity the 2-opt comparison actually measures — the closed tour
length through the viewpoint positions including the wrap-around edge
`tour[(j+1) % len(tour)]` from the last viewpoint back to the first.  (The
open flown path length of the original claim can strictly increase; see
the counterexample.) -/
theorem optimize_2opt_cycle_length_mono (nrm : Vec3 F → F)
    (hsym : ∀ a b, nrm (vsub a b) = nrm (vsub b a))
    (start_position : Vec3 F) (waypoints : List (TargetWp F)) :
    cycleLen nrm (tourPoints (waypoints.map (·.position))
        (optimize_waypoint_order_2opt nrm start_position waypoints)) ≤
      cycleLen nrm (tourPoints (waypoints.map (·.position))
        (nnTour nrm start_position (waypoints.map (·.position)))) := by
  unfold optimize_waypoint_order_2opt
  by_cases he : waypoints.isEmpty
  · rw [if_pos he]
    have h0 : waypoints = [] := List.isEmpty_iff.mp he
    subst h0
    exact le_refl _
  · rw [if_neg he]
    exact twoOptLoop_cycleLen nrm hsym _ _ _

/-- Witness for the amended C1: over `ℚ` with the (symmetric) taxicab norm,
start (0,0,0) and two viewpoints (3,0,0) and (0,2,0). -/
theorem optimize_2opt_cycle_length_mono_witness :
    cycleLen (fun u : Vec3 ℚ => |u.1| + |u.2.1| + |u.2.2|)
        (tourPoints (([⟨((3 : ℚ), 0, 0), (0, 0, 0), "a", (0, 0, 0)⟩,
              ⟨((0 : ℚ), 2, 0), (0, 0, 0), "b", (0, 0, 0)⟩] : List (TargetWp ℚ)).map
            (·.position))
          (optimize_waypoint_order_2opt (fun u : Vec3 ℚ => |u.1| + |u.2.1| + |u.2.2|)
            ((0 : ℚ), 0, 0)
            [⟨((3 : ℚ), 0, 0), (0, 0, 0), "a", (0, 0, 0)⟩,
              ⟨((0 : ℚ), 2, 0), (0, 0, 0), "b", (0, 0, 0)⟩])) ≤
      cycleLen (fun u : Vec3 ℚ => |u.1| + |u.2.1| + |u.2.2|)
        (tourPoints (([⟨((3 : ℚ), 0, 0), (0, 0, 0), "a", (0, 0, 0)⟩,
              ⟨((0 : ℚ), 2, 0), (0, 0, 0), "b", (0, 0, 0)⟩] : List (TargetWp ℚ)).map
            (·.position))
          (nnTour (fun u : Vec3 ℚ => |u.1| + |u.2.1| + |u.2.2|) ((0 : ℚ), 0, 0)
            (([⟨((3 : ℚ), 0, 0), (0, 0, 0), "a", (0, 0, 0)⟩,
              ⟨((0 : ℚ), 2, 0), (0, 0, 0), "b", (0, 0, 0)⟩] : List (TargetWp ℚ)).map
              (·.position)))) :=
  optimize_2opt_cycle_length_mono (fun u : Vec3 ℚ => |u.1| + |u.2.1| + |u.2.2|)
    (fun a b => by
      simp only [vsub]
      rw [abs_sub_comm a.1 b.1, abs_sub_comm a.2.1 b.2.1, abs_sub_comm a.2.2 b.2.2])
    ((0 : ℚ), 0, 0)
    [⟨((3 : ℚ), 0, 0), (0, 0, 0), "a", (0, 0, 0)⟩,
      ⟨((0 : ℚ), 2, 0), (0, 0, 0), "b", (0, 0, 0)⟩]

end DetectiveDrone
